import Mathlib

/-!
Verification of the DAG-chat backend core, shallowly embedded from the Python
sources in src/backend: the SubDAG builder and chain-preserving topological
sort (src/backend/api/routes/chat.py), the model-set update rule, the
persistence step, the streaming dispatcher, and the conversation API handlers
(src/backend/api/routes/conversation.py).

Python dicts are modelled as insertion-ordered association lists, Python sets
of strings as strictly-sorted lists (so that iterating the model coincides
with Python's `sorted(s)`), and Python string comparison as code-point
lexicographic comparison on the character list.
-/

set_option maxHeartbeats 1000000

namespace DagChat

/-- MessageNode document (src/backend/models/schemas.py).  Optional fields of
the pydantic model are represented with Option; a key missing from the stored
document corresponds to `none`. -/
structure Node where
  role : String := ""
  content : String := ""
  conversation_id : String := ""
  model : Option String := none
  reasoning : Option String := none
  parent_ids : List String := []
  children : List String := []
deriving DecidableEq, Repr, Inhabited

/-- Association-list lookup with string keys: the model of Python dict lookup
(`d.get(k)`) for dicts represented as insertion-ordered lists. -/
def alookup {β : Type} (m : List (String × β)) (k : String) : Option β :=
  match m with
  | [] => none
  | (k', v) :: rest => if k' = k then some v else alookup rest k

/-- Keys of an association list, in insertion order (Python `dict.keys()`). -/
def akeys {β : Type} (m : List (String × β)) : List String :=
  m.map Prod.fst

/-- Python string comparison (code-point lexicographic), on char lists. -/
def pyStrLtChars : List Char → List Char → Bool
  | [], [] => false
  | [], _ :: _ => true
  | _ :: _, [] => false
  | a :: as, b :: bs =>
      if a.toNat < b.toNat then true
      else if b.toNat < a.toNat then false
      else pyStrLtChars as bs

/-- Python `a < b` on strings. -/
def pyStrLt (a b : String) : Bool := pyStrLtChars a.data b.data

/-- Insert into a strictly-sorted duplicate-free list (Python `set.add`,
keeping the representation equal to `sorted(s)`). -/
def ssInsert (x : String) : List String → List String
  | [] => [x]
  | y :: rest =>
      if pyStrLt x y then x :: y :: rest
      else if x = y then y :: rest
      else y :: ssInsert x rest

/-- Remove from the sorted-list set representation (Python `set.remove`). -/
def ssErase (x : String) : List String → List String
  | [] => []
  | y :: rest => if y = x then rest else y :: ssErase x rest

/-! ## Degrees and the edge map (src/backend/api/routes/chat.py) -/

/-- `node_map.get(c, \x7b\x7d).get('parent_ids', [])`. -/
def parentsOf (m : List (String × Node)) (c : String) : List String :=
  ((alookup m c).map Node.parent_ids).getD []

/-- Parents of `c` that lie inside the SubDAG. -/
def parentsIn (m : List (String × Node)) (c : String) : List String :=
  (parentsOf m c).filter (fun p => decide (p ∈ akeys m))

/-- `in_degree[c]` as computed over the SubDAG (count of parents of `c`
inside `node_map`, with multiplicity). -/
def inDeg (m : List (String × Node)) (c : String) : Nat :=
  (parentsIn m c).length

/-- `edges.get(n, [])`. -/
def childrenList (edges : List (String × List String)) (n : String) : List String :=
  (alookup edges n).getD []

/-- `out_degree.get(n, 0)`: children of `n` recorded in `edges` that lie
inside the SubDAG, with multiplicity. -/
def outDeg (m : List (String × Node)) (edges : List (String × List String))
    (n : String) : Nat :=
  (childrenList edges n).countP (fun c => decide (c ∈ akeys m))

/-- `edges[k].append(v)` on a `defaultdict(list)`: appends `v` to the list at
`k`, materialising the key at the end on first touch. -/
def edgesUpsert (e : List (String × List String)) (k v : String) :
    List (String × List String) :=
  match e with
  | [] => [(k, [v])]
  | (k', l) :: rest =>
      if k' = k then (k', l ++ [v]) :: rest else (k', l) :: edgesUpsert rest k v

/-- Edge construction of `build_dag_from_parents` (chat.py lines 91-95): for
each node of `node_map` in insertion order, for each of its `parent_ids` that
is a key of `node_map`, append the node id to that parent's child list. -/
def edgesOf (m : List (String × Node)) : List (String × List String) :=
  m.foldl
    (fun acc kv =>
      kv.2.parent_ids.foldl
        (fun acc2 p =>
          if p ∈ akeys m then edgesUpsert acc2 p kv.1 else acc2)
        acc)
    []

/-! ## Chain-preserving topological sort (`topological_sort_subdag`) -/

/-- Mutable state of the Kahn loop: emitted nodes (`result`), the `available`
set (sorted-list model), and the live in-degree copy `in_degree_copy`
(an integer map, as Python's `defaultdict(int)` may go negative). -/
structure SortSt where
  result : List String
  avail : List String
  live : String → Int

/-- Body of the `for child_id in edges.get(selected, [])` update: inside the
SubDAG, decrement the live in-degree and add the child to `available` when it
reaches zero. -/
def applyChild (keys : List String) (st : List String × (String → Int))
    (c : String) : List String × (String → Int) :=
  if c ∈ keys then
    let lv := fun x => if x = c then st.2 x - 1 else st.2 x
    if lv c = 0 then (ssInsert c st.1, lv) else (st.1, lv)
  else st

/-- Processing of all children of the selected node. -/
def applyChildren (keys : List String) (cs : List String)
    (st : List String × (String → Int)) : List String × (String → Int) :=
  cs.foldl (applyChild keys) st

/-- Selection of the next node (chat.py lines 156-181): for the first node,
the least available id; afterwards strategy 1 (extend the chain through a
child of the last emitted node with original in-degree 1), then strategy 2
(least available pure link node), then strategy 3 (least available id). -/
def pickNext (m : List (String × Node)) (edges : List (String × List String))
    (st : SortSt) : Option String :=
  match st.result.getLast? with
  | none => st.avail.head?
  | some last =>
      match (childrenList edges last).find?
          (fun c => decide (c ∈ st.avail) && (inDeg m c == 1)) with
      | some c => some c
      | none =>
          match st.avail.find?
              (fun n => (inDeg m n == 1) && (outDeg m edges n == 1)) with
          | some n => some n
          | none => st.avail.head?

/-- Effect of one loop iteration that emits `sel`: append it to the result,
remove it from `available`, and process its children. -/
def stepState (m : List (String × Node)) (edges : List (String × List String))
    (st : SortSt) (sel : String) : SortSt :=
  { result := st.result ++ [sel],
    avail := (applyChildren (akeys m) (childrenList edges sel)
      (ssErase sel st.avail, st.live)).1,
    live := (applyChildren (akeys m) (childrenList edges sel)
      (ssErase sel st.avail, st.live)).2 }

/-- One-iteration-per-fuel-unit encoding of the `while available:` loop. -/
def sortLoop (m : List (String × Node)) (edges : List (String × List String)) :
    Nat → SortSt → SortSt
  | 0, st => st
  | fuel + 1, st =>
      if st.avail = [] then st
      else
        match pickNext m edges st with
        | none => st
        | some sel => sortLoop m edges fuel (stepState m edges st sel)

/-- Initial `available` set: SubDAG nodes of in-degree 0, as a sorted set. -/
def initAvail (m : List (String × Node)) : List String :=
  ((akeys m).filter (fun n => inDeg m n == 0)).foldl (fun s n => ssInsert n s) []

/-- `topological_sort_subdag(node_map, edges)` (chat.py lines 108-193).  The
loop runs at most once per node, so `node_map` size is enough fuel. -/
def topological_sort_subdag (m : List (String × Node))
    (edges : List (String × List String)) : List String :=
  if m = [] then []
  else
    (sortLoop m edges m.length
      { result := [], avail := initAvail m, live := fun n => (inDeg m n : Int) }).result

/-! ## SubDAG builder (`build_dag_from_parents`, chat.py lines 26-105) -/

/-- Hex digit test, as accepted by `bson.ObjectId`. -/
def isHexDigitB (c : Char) : Bool :=
  c.isDigit || ('a' ≤ c && c ≤ 'f') || ('A' ≤ c && c ≤ 'F')

/-- Validity of an ObjectId hex string: 24 hexadecimal characters. -/
def isValidOid (s : String) : Bool :=
  s.length == 24 && s.data.all isHexDigitB

/-- ASCII lowercasing of one character. -/
def lowerChar (c : Char) : Char :=
  if 'A' ≤ c && c ≤ 'Z' then Char.ofNat (c.toNat + 32) else c

/-- ASCII lowercasing of a string (`str.lower()` restricted to ASCII, which
covers hex digit strings). -/
def lowerStr (s : String) : String :=
  String.mk (s.data.map lowerChar)

/-- `ObjectId(s)` followed by `str(...)`: parsing normalises to lowercase
hex; a malformed string raises (modelled by `none`). -/
def parseOid (s : String) : Option String :=
  if isValidOid s then some (lowerStr s) else none

/-- The `start_ids` comprehension (chat.py line 46): falsy ids are skipped by
the filter, but a single malformed id raises and aborts the whole list. -/
def parseStartIds (parent_ids : List String) : Option (List String) :=
  (parent_ids.filter (· ≠ "")).mapM parseOid

/-- Parents of a freshly visited node that get appended to the queue
(chat.py lines 78-83): truthy, not yet visited, and parseable. -/
def collectParents (ps : List String) (visited : List String) : List String :=
  ps.filterMap (fun p =>
    if p = "" then none else if p ∈ visited then none else parseOid p)

/-- Per-batch node processing (chat.py lines 71-83): each found node not yet
visited is marked visited, inserted into `node_map`, and contributes its new
parents to the queue, in iteration order. -/
def processNodes (found : List (String × Node)) (visited : List String)
    (nm : List (String × Node)) (acc : List String) :
    List String × List (String × Node) × List String :=
  match found with
  | [] => (visited, nm, acc)
  | (nid, node) :: rest =>
      if nid ∈ visited then processNodes rest visited nm acc
      else
        processNodes rest (nid :: visited) (nm ++ [(nid, node)])
          (acc ++ collectParents node.parent_ids (nid :: visited))

/-- The BFS loop (chat.py lines 63-85): per iteration, take a batch of up to
100 queued ids, look them up in the store (one `$in` query, returning
matches in store order), and process them.  The fuel parameter is
`max_depth - current_depth`; the returned third component is the queue left
over when the iteration bound was hit (`[]` when the queue drained). -/
def bfsLoop (store : List (String × Node)) :
    Nat → List String → List String → List (String × Node) →
    List (String × Node) × List String × List String
  | 0, queue, visited, nm => (nm, visited, queue)
  | fuel + 1, queue, visited, nm =>
      if queue = [] then (nm, visited, [])
      else
        let batch := queue.take 100
        let rest := queue.drop 100
        let found := store.filter (fun kv => decide (kv.1 ∈ batch))
        let s := processNodes found visited nm []
        bfsLoop store fuel (rest ++ s.2.2) s.1 s.2.1

/-- `max_depth` guard of the BFS (chat.py line 60). -/
def max_depth : Nat := 2000

/-- `build_dag_from_parents` with the leftover queue exposed: returns
`(node_map, edges, leftover)` where `leftover = []` exactly when the
traversal drained its queue within the `max_depth` bound. -/
def build_dag_core (store : List (String × Node)) (parent_ids : List String) :
    List (String × Node) × List (String × List String) × List String :=
  if parent_ids = [] then ([], [], [])
  else
    match parseStartIds parent_ids with
    | none => ([], [], [])
    | some start_ids =>
        let r := bfsLoop store max_depth start_ids [] []
        (r.1, edgesOf r.1, r.2.2)

/-- `build_dag_from_parents(mongo_db, parent_ids)` (chat.py lines 26-105),
over a store modelling the `message_node` collection. -/
def build_dag_from_parents (store : List (String × Node))
    (parent_ids : List String) :
    List (String × Node) × List (String × List String) :=
  ((build_dag_core store parent_ids).1, (build_dag_core store parent_ids).2.1)

/-! ## Model-set update rule (`update_conversation_models`, chat.py 372-427) -/

/-- Python default whitespace (ASCII part), as stripped by `str.strip()`. -/
def isPySpace (c : Char) : Bool :=
  c = ' ' || c = '\t' || c = '\n' || c = '\x0d' || c = '\x0b' || c = '\x0c'

/-- `str.split(',')` on char lists: cut at every comma, keeping empty pieces.
An empty input yields one empty piece, as in Python. -/
def splitCommaChars : List Char → List (List Char)
  | [] => [[]]
  | c :: rest =>
      if c = ',' then [] :: splitCommaChars rest
      else
        match splitCommaChars rest with
        | [] => [[c]]
        | p :: ps => (c :: p) :: ps

/-- `s.split(',')`. -/
def pySplitComma (s : String) : List String :=
  (splitCommaChars s.data).map (fun cs => String.mk cs)

/-- Leading-whitespace removal. -/
def trimLeftChars (l : List Char) : List Char := l.dropWhile isPySpace

/-- Trailing-whitespace removal. -/
def trimRightChars (l : List Char) : List Char :=
  (l.reverse.dropWhile isPySpace).reverse

/-- `s.strip()` with the default whitespace set. -/
def pyStrip (s : String) : String :=
  String.mk (trimRightChars (trimLeftChars s.data))

/-- `','.join(ts)` on char lists. -/
def joinCommaChars : List (List Char) → List Char
  | [] => []
  | [t] => t
  | t :: ts => t ++ ',' :: joinCommaChars ts

/-- `','.join(ts)`. -/
def pyJoinComma (ts : List String) : String :=
  String.mk (joinCommaChars (ts.map String.data))

/-- The string transformation performed by `update_conversation_models`
(chat.py lines 397-412): an empty current value is replaced by the new model
outright; otherwise split on commas, strip, drop empties, append the new
model if absent, and rejoin. -/
def update_model_field (current new_model : String) : String :=
  if current = "" then new_model
  else
    let models := ((pySplitComma current).map pyStrip).filter (· ≠ "")
    let models' := if new_model ∈ models then models else models ++ [new_model]
    pyJoinComma models'

/-- Modelled from the spec (section 4.1 "Model-set update rule"): read
current string; split by comma, trim whitespace, drop empties; if the
incoming provider name is not in the list, append; rejoin by comma.  Stated
without the empty-string shortcut of the source, for the refinement proof. -/
def update_model_field_spec (current new_model : String) : String :=
  let models := ((pySplitComma current).map pyStrip).filter (· ≠ "")
  let models' := if new_model ∈ models then models else models ++ [new_model]
  pyJoinComma models'

/-! ## Conversation metadata rows and the thin API handlers
(src/backend/api/routes/conversation.py) -/

/-- Row of `t_conversations`; times are abstract ticks. -/
structure ConvRow where
  id : String := ""
  user_id : String := ""
  title : String := ""
  model : String := ""
  create_time : Nat := 0
  update_time : Nat := 0
deriving DecidableEq, Repr, Inhabited

/-- Envelope `\x7bcode, message\x7d` of the conversation API responses (the
`data` payload carries nothing relevant to the verified claims). -/
structure ApiResp where
  code : Nat
  message : String
deriving DecidableEq, Repr

/-- `DEFAULT_TITLE` (conversation.py line 15). -/
def DEFAULT_TITLE : String := "未命名对话"

/-- `MAX_TITLE_LENGTH` (conversation.py line 14). -/
def MAX_TITLE_LENGTH : Nat := 64

/-- `create_conversation` (conversation.py lines 23-54) on the success path:
inserts a header row carrying `DEFAULT_TITLE` and returns the generated id.
`execute_query` reports success whenever the INSERT raises no SQL error. -/
def create_conversation (user_id model : String) (newId : String)
    (db : List ConvRow) (now : Nat) : String × List ConvRow :=
  (newId,
    db ++ [{ id := newId, user_id := user_id, title := DEFAULT_TITLE,
             model := model, create_time := now, update_time := now }])

/-- `rename_conversation` (conversation.py lines 222-306).  Validation
rejects blank ids and blank or over-long titles with a 400 envelope before
any database access; otherwise a keyed UPDATE runs, and `execute_query`
(mysql_connection.py lines 45-55) returns success whenever the statement
raises no SQL error, regardless of how many rows matched. -/
def rename_conversation (db : List ConvRow)
    (conversation_id user_id new_title : String) (now : Nat) :
    ApiResp × List ConvRow :=
  if pyStrip conversation_id = "" then
    ({ code := 400, message := "对话ID不能为空" }, db)
  else if pyStrip user_id = "" then
    ({ code := 400, message := "用户ID不能为空" }, db)
  else if pyStrip new_title = "" then
    ({ code := 400, message := "新标题不能为空" }, db)
  else if MAX_TITLE_LENGTH < new_title.length then
    ({ code := 400, message := "标题长度不能超过64个字符" }, db)
  else
    ({ code := 0, message := "对话重命名成功" },
      db.map (fun r =>
        if r.id = conversation_id ∧ r.user_id = user_id then
          { r with title := new_title, update_time := now }
        else r))

/-! ## Persistence of a completed turn
(`save_conversation_to_database`, chat.py lines 430-551) -/

/-- ChatRequest (src/backend/models/requests.py). -/
structure ChatRequest where
  message : String
  user_id : String := "zm-bad"
  conversation_id : String
  model : String := "deepseek"
  parent_ids : Option (List String) := none
  deep_thinking : Bool := false
  search_enabled : Bool := false
deriving DecidableEq, Repr

/-- `request.parent_ids` if truthy, else the empty default. -/
def reqParents (req : ChatRequest) : List String :=
  req.parent_ids.getD []

/-- MySQL half of the save (chat.py lines 446-489): on a first ask set the
generated title, otherwise touch `update_time`; then apply the model-set
rule.  `genTitle` stands for `model_service.generate_title(...)`. -/
def save_mysql (req : ChatRequest) (first_ask : Bool) (genTitle : String)
    (now : Nat) (convs : List ConvRow) : List ConvRow :=
  let convs1 :=
    if first_ask then
      convs.map (fun r =>
        if r.id = req.conversation_id then
          { r with title := genTitle, update_time := now } else r)
    else
      convs.map (fun r =>
        if r.id = req.conversation_id then { r with update_time := now } else r)
  if req.conversation_id = "" then convs1
  else
    match convs1.find? (fun r => r.id == req.conversation_id) with
    | none => convs1
    | some row =>
        convs1.map (fun r =>
          if r.id = req.conversation_id then
            { r with model := update_model_field row.model req.model,
                     update_time := now }
          else r)

/-- Keyed full-document replace (`mongo_db.update` with an `_id` filter). -/
def storeUpdate (store : List (String × Node)) (k : String) (doc : Node) :
    List (String × Node) :=
  store.map (fun kv => if kv.1 = k then (k, doc) else kv)

/-- The parent back-edge maintenance (chat.py lines 509-518): fetch the
parent documents in one `$in` query (a snapshot, in store order), then for
each one append the new user node id to its `children` unless already
present, writing the document back. -/
def updateParents (store : List (String × Node)) (parentKeys : List String)
    (uid : String) : List (String × Node) :=
  let found := store.filter (fun kv => decide (kv.1 ∈ parentKeys))
  found.foldl
    (fun st kv =>
      if uid ∈ kv.2.children then st
      else storeUpdate st kv.1 { kv.2 with children := kv.2.children ++ [uid] })
    store

/-- MongoDB half of the save (chat.py lines 494-551): insert the user node,
link the parents, insert the assistant node, then rewrite both new documents
with the mirrored edge fields.  The ids `uid`/`aid` model the ObjectIds
returned by the two inserts.  A malformed parent id makes the untried
`ObjectId` conversion at line 511 raise: the result is `none` together with
the store as mutated so far. -/
def save_mongo (req : ChatRequest) (full_content full_reasoning : String)
    (store : List (String × Node)) (uid aid : String) :
    List (String × Node) × Option (String × String) :=
  let userNode : Node :=
    { role := "user", content := req.message,
      conversation_id := req.conversation_id, model := some req.model,
      parent_ids := reqParents req, children := [] }
  let st1 := store ++ [(uid, userNode)]
  let linked : Option (List (String × Node)) :=
    if reqParents req = [] then some st1
    else
      match (reqParents req).mapM parseOid with
      | none => none
      | some oids => some (updateParents st1 oids uid)
  match linked with
  | none => (st1, none)
  | some st2 =>
      let aiNode : Node :=
        { role := "assistant", content := full_content,
          conversation_id := req.conversation_id, model := some req.model,
          reasoning := if full_reasoning ≠ "" then some full_reasoning else none,
          parent_ids := [], children := [] }
      let st3 := st2 ++ [(aid, aiNode)]
      let userDict :=
        { userNode with children :=
            if aid ∈ userNode.children then userNode.children
            else userNode.children ++ [aid] }
      let aiDict :=
        { aiNode with parent_ids :=
            if uid ∈ aiNode.parent_ids then aiNode.parent_ids
            else aiNode.parent_ids ++ [uid] }
      let st4 := storeUpdate st3 uid userDict
      let st5 := storeUpdate st4 aid aiDict
      (st5, some (uid, aid))

/-- Combined database state touched by a chat turn. -/
structure DB where
  convs : List ConvRow
  nodes : List (String × Node)
deriving DecidableEq, Repr

/-- `save_conversation_to_database` (chat.py lines 430-551): MySQL metadata
update followed by the MongoDB node writes; the optional result carries the
two new node ids when the Mongo section completed. -/
def save_conversation_to_database (req : ChatRequest)
    (full_content full_reasoning : String) (first_ask : Bool)
    (genTitle : String) (now : Nat) (uid aid : String) (db : DB) :
    DB × Option (String × String) :=
  let convs' := save_mysql req first_ask genTitle now db.convs
  let r := save_mongo req full_content full_reasoning db.nodes uid aid
  ({ convs := convs', nodes := r.1 }, r.2)

/-! ## Streaming dispatcher (`generate`, chat.py lines 297-369) -/

/-- One chunk from a model adapter. -/
structure Chunk where
  content : String := ""
  reasoning : String := ""
  error : Option String := none
deriving DecidableEq, Repr

/-- Python truthiness of `chunk.get('error')`. -/
def chunkHasError (c : Chunk) : Bool :=
  match c.error with
  | some s => s ≠ ""
  | none => false

/-- One SSE frame body. -/
inductive SSEFrame where
  | unsupported (model : String)
  | errChunk (c : Chunk)
  | token (content reasoning : String)
  | streamFailed
  | final (user_message_id assistant_message_id : String)
deriving DecidableEq, Repr

/-- Error frames: frames whose JSON carries an `error` key. -/
def SSEFrame.isError : SSEFrame → Bool
  | .unsupported _ => true
  | .errChunk _ => true
  | .streamFailed => true
  | .token _ _ => false
  | .final _ _ => false

/-- Relay loop plus post-stream persistence of `generate`.  `chunks` is the
finite upstream sequence; `sinkFailAt = some i` models the client disconnect
exception (ConnectionError / CancelledError / BrokenPipeError / OSError)
raised at the i-th token yield, which the handler at lines 361-364 turns
into a silent return.  An error chunk is relayed and ends the stream before
persistence; otherwise the turn is saved and the final frame emitted, with a
save-time exception caught at lines 366-369 as a streaming-failure frame. -/
def generate_go (req : ChatRequest) (first_ask : Bool) (genTitle : String)
    (now : Nat) (uid aid : String) (sinkFailAt : Option Nat) (db : DB) :
    List Chunk → Nat → String → String → List SSEFrame →
    List SSEFrame × DB
  | [], _, full_content, full_reasoning, frames =>
      match save_conversation_to_database req full_content full_reasoning
          first_ask genTitle now uid aid db with
      | (db', some ids) => (frames ++ [SSEFrame.final ids.1 ids.2], db')
      | (db', none) => (frames ++ [SSEFrame.streamFailed], db')
  | c :: rest, i, full_content, full_reasoning, frames =>
      if chunkHasError c then (frames ++ [SSEFrame.errChunk c], db)
      else
        if sinkFailAt = some i then (frames, db)
        else
          generate_go req first_ask genTitle now uid aid sinkFailAt db rest
            (i + 1) (full_content ++ c.content) (full_reasoning ++ c.reasoning)
            (frames ++ [SSEFrame.token c.content c.reasoning])

/-- The `generate` coroutine (chat.py lines 297-369), as the list of SSE
frames it emits and the database state it leaves behind.  `modelSupported`
models `ModelFactory.get_service(request.model)` returning an adapter. -/
def generate_run (req : ChatRequest) (modelSupported : Bool)
    (chunks : List Chunk) (sinkFailAt : Option Nat) (first_ask : Bool)
    (genTitle : String) (now : Nat) (uid aid : String) (db : DB) :
    List SSEFrame × DB :=
  if ¬ modelSupported then ([SSEFrame.unsupported req.model], db)
  else generate_go req first_ask genTitle now uid aid sinkFailAt db chunks 0 "" "" []

/-! ## Helper measures for the sort proofs -/

/-- Number of occurrences of `x` among the SubDAG-internal entries of a
child list (the decrements `x` receives when that list is processed). -/
def childCount (keys : List String) (cs : List String) (x : String) : Nat :=
  List.count x (cs.filter (fun c => decide (c ∈ keys)))

/-- Intended value of `in_degree_copy[c]` after emitting `result`: the
original in-degree minus the emitted SubDAG-internal parents of `c`. -/
def liveSpec (m : List (String × Node)) (result : List String) (c : String) : Int :=
  (inDeg m c : Int) - ((parentsIn m c).countP (fun p => decide (p ∈ result)) : Int)

/-- Mirror condition between `node_map` and `edges`: inside the SubDAG, the
recorded child multiset of `p` matches the recorded parent multiset, as holds
for the `edges` built by `build_dag_from_parents`. -/
def HMirror (m : List (String × Node)) (e : List (String × List String)) : Prop :=
  ∀ p c, p ∈ akeys m → c ∈ akeys m →
    List.count c (childrenList e p) = List.count p (parentsIn m c)

/-- Output ordering property: every SubDAG-internal parent of an emitted
node is emitted at a strictly smaller index. -/
def Ordered (m : List (String × Node)) (l : List String) : Prop :=
  ∀ c ∈ l, ∀ p ∈ parentsIn m c, p ∈ l ∧ l.indexOf p < l.indexOf c

/-- Structural invariant of the sort loop, valid for arbitrary `edges`:
emitted ids are distinct SubDAG keys, `available` is a sorted set of
unemitted SubDAG keys, and the live count of every emitted or available node
is non-positive. -/
def WInv (m : List (String × Node)) (st : SortSt) : Prop :=
  st.result.Nodup ∧
  (∀ n ∈ st.result, n ∈ akeys m) ∧
  (∀ n ∈ st.avail, n ∈ akeys m ∧ n ∉ st.result) ∧
  st.avail.Pairwise (fun x y => pyStrLt x y = true) ∧
  (∀ n ∈ st.result, st.live n ≤ 0) ∧
  (∀ n ∈ st.avail, st.live n ≤ 0)

/-- Bookkeeping invariant of the sort loop under the mirror condition: the
live count tracks unemitted SubDAG parents, available nodes have all parents
emitted, the emitted order respects parent edges, and a node that is neither
emitted nor available still has an unemitted parent. -/
def MInv (m : List (String × Node)) (st : SortSt) : Prop :=
  (∀ c, st.live c = liveSpec m st.result c) ∧
  (∀ n ∈ st.avail, ∀ p ∈ parentsIn m n, p ∈ st.result) ∧
  Ordered m st.result ∧
  (∀ n ∈ akeys m, n ∉ st.result → n ∉ st.avail →
    (parentsIn m n).countP (fun p => decide (p ∈ st.result)) < inDeg m n)

/-- Chain-shaped node map: walking the id list in order, each node's stored
`parent_ids` is exactly its predecessor in the list (empty for the head).
This is the shape `build_dag_from_parents` produces for a linked list. -/
def ChainShape (m : List (String × Node)) : Option String → List String → Prop
  | _, [] => True
  | prev, x :: rest => parentsOf m x = prev.toList ∧ ChainShape m (some x) rest

/-! ## Specification-level relations -/

/-- Ancestor closure of a list of start ids inside a store: the start ids
that exist in the store, closed under following parseable `parent_ids`
entries to nodes that exist in the store. -/
inductive InClosure (store : List (String × Node)) (starts : List String) :
    String → Prop where
  | start : ∀ s, s ∈ starts → s ∈ akeys store → InClosure store starts s
  | up : ∀ c node p q, InClosure store starts c → alookup store c = some node →
      p ∈ node.parent_ids → p ≠ "" → parseOid p = some q → q ∈ akeys store →
      InClosure store starts q

/-- One parent step inside a SubDAG: `p` is a parent of `c`, both inside the
map. -/
def AncStep (m : List (String × Node)) (c p : String) : Prop :=
  p ∈ parentsIn m c

/-- Strict ancestry inside a SubDAG (one or more parent steps). -/
def AncPlus (m : List (String × Node)) : String → String → Prop :=
  Relation.TransGen (AncStep m)

/-- Reflexive ancestry inside a SubDAG. -/
def AncStar (m : List (String × Node)) : String → String → Prop :=
  Relation.ReflTransGen (AncStep m)

/-- Invariant of the BFS loop of `build_dag_from_parents`: visited ids are
the `node_map` keys, `node_map` holds distinct store entries, everything
visited or usefully queued lies in the ancestor closure of the start ids,
and every parseable parent of a collected node that exists in the store is
either already visited or still queued. -/
def BInv (store : List (String × Node)) (starts : List String)
    (queue visited : List String) (nm : List (String × Node)) : Prop :=
  (∀ x, x ∈ visited ↔ x ∈ akeys nm) ∧
  (akeys nm).Nodup ∧
  (∀ kv ∈ nm, kv ∈ store) ∧
  (∀ x ∈ visited, InClosure store starts x) ∧
  (∀ q ∈ queue, q ∈ akeys store → InClosure store starts q) ∧
  (∀ kv ∈ nm, ∀ p ∈ kv.2.parent_ids, p ≠ "" → ∀ q, parseOid p = some q →
    q ∈ akeys store → q ∈ visited ∨ q ∈ queue)

/-- Store well-formedness for the SubDAG builder: node keys are distinct,
valid, normalised ObjectId hex strings, and every valid parent reference is
already normalised (as `str(ObjectId)` output always is). -/
def WFStore (store : List (String × Node)) : Prop :=
  (akeys store).Nodup ∧
  (∀ k ∈ akeys store, parseOid k = some k) ∧
  (∀ kv ∈ store, ∀ p ∈ kv.2.parent_ids, isValidOid p → lowerStr p = p)

/-! ## Lemmas: the sorted-set model -/

theorem pyStrLtChars_irrefl (l : List Char) : pyStrLtChars l l = false := by
  induction l with
  | nil => rfl
  | cons a as ih => simp [pyStrLtChars, ih]

theorem pyStrLt_irrefl (a : String) : pyStrLt a a = false :=
  pyStrLtChars_irrefl a.data

theorem pyStrLtChars_cons_iff (a b : Char) (as bs : List Char) :
    pyStrLtChars (a :: as) (b :: bs) = true ↔
      a.toNat < b.toNat ∨ (a.toNat = b.toNat ∧ pyStrLtChars as bs = true) := by
  simp only [pyStrLtChars]
  split_ifs with h1 h2
  · simp [h1]
  · simp only [Bool.false_eq_true, false_iff]
    rintro (h | ⟨h, -⟩) <;> omega
  · have heq : a.toNat = b.toNat := by omega
    simp [heq]

theorem pyStrLtChars_total (l r : List Char) :
    pyStrLtChars l r = true ∨ l = r ∨ pyStrLtChars r l = true := by
  induction l generalizing r with
  | nil => cases r <;> simp [pyStrLtChars]
  | cons a as ih =>
      cases r with
      | nil => simp [pyStrLtChars]
      | cons b bs =>
          rcases Nat.lt_trichotomy a.toNat b.toNat with h | h | h
          · left; rw [pyStrLtChars_cons_iff]; exact Or.inl h
          · have hab : a = b :=
              Char.eq_of_val_eq (UInt32.toNat.inj h)
            subst hab
            rcases ih bs with h2 | h2 | h2
            · left; rw [pyStrLtChars_cons_iff]; exact Or.inr ⟨rfl, h2⟩
            · right; left; rw [h2]
            · right; right; rw [pyStrLtChars_cons_iff]; exact Or.inr ⟨rfl, h2⟩
          · right; right; rw [pyStrLtChars_cons_iff]; exact Or.inl h

theorem pyStrLt_total (a b : String) :
    pyStrLt a b = true ∨ a = b ∨ pyStrLt b a = true := by
  rcases pyStrLtChars_total a.data b.data with h | h | h
  · exact Or.inl h
  · refine Or.inr (Or.inl ?_)
    cases a; cases b; exact congrArg String.mk h
  · exact Or.inr (Or.inr h)

theorem pyStrLtChars_trans {a b c : List Char} (h1 : pyStrLtChars a b = true)
    (h2 : pyStrLtChars b c = true) : pyStrLtChars a c = true := by
  induction a generalizing b c with
  | nil =>
      cases b with
      | nil => exact absurd h1 (by simp [pyStrLtChars])
      | cons y ys => cases c with
        | nil => exact absurd h2 (by simp [pyStrLtChars])
        | cons z zs => simp [pyStrLtChars]
  | cons x xs ih =>
      cases b with
      | nil => exact absurd h1 (by simp [pyStrLtChars])
      | cons y ys =>
          cases c with
          | nil => exact absurd h2 (by simp [pyStrLtChars])
          | cons z zs =>
              rw [pyStrLtChars_cons_iff] at h1 h2 ⊢
              rcases h1 with h1 | ⟨h1, h1r⟩
              · rcases h2 with h2 | ⟨h2, -⟩
                · exact Or.inl (by omega)
                · exact Or.inl (by omega)
              · rcases h2 with h2 | ⟨h2, h2r⟩
                · exact Or.inl (by omega)
                · exact Or.inr ⟨by omega, ih h1r h2r⟩

theorem pyStrLt_trans {a b c : String} (h1 : pyStrLt a b = true)
    (h2 : pyStrLt b c = true) : pyStrLt a c = true :=
  pyStrLtChars_trans h1 h2

theorem mem_ssInsert {x a : String} {l : List String} :
    x ∈ ssInsert a l ↔ x = a ∨ x ∈ l := by
  induction l with
  | nil => simp [ssInsert]
  | cons y rest ih =>
      by_cases h1 : pyStrLt a y = true
      · simp [ssInsert, h1]
      · by_cases h2 : a = y
        · subst h2
          simp [ssInsert, h1]
        · have hrw : ssInsert a (y :: rest) = y :: ssInsert a rest := by
            simp [ssInsert, h1, h2]
          rw [hrw]
          simp [ih]
          tauto

theorem pairwise_ssInsert (a : String) (l : List String)
    (h : l.Pairwise (fun x y => pyStrLt x y = true)) :
    (ssInsert a l).Pairwise (fun x y => pyStrLt x y = true) := by
  induction l with
  | nil => simp [ssInsert]
  | cons y rest ih =>
      rcases List.pairwise_cons.mp h with ⟨hy, hrest⟩
      by_cases h1 : pyStrLt a y = true
      · have hrw : ssInsert a (y :: rest) = a :: y :: rest := by
          simp [ssInsert, h1]
        rw [hrw]
        refine List.pairwise_cons.mpr ⟨?_, h⟩
        intro z hz
        rcases List.mem_cons.mp hz with rfl | hz
        · exact h1
        · exact pyStrLt_trans h1 (hy z hz)
      · by_cases h2 : a = y
        · subst h2
          have hrw : ssInsert a (a :: rest) = a :: rest := by
            simp [ssInsert, h1]
          rw [hrw]; exact h
        · have h3 : pyStrLt y a = true := by
            rcases pyStrLt_total a y with hh | hh | hh
            · exact absurd hh h1
            · exact absurd hh h2
            · exact hh
          have hrw : ssInsert a (y :: rest) = y :: ssInsert a rest := by
            simp [ssInsert, h1, h2]
          rw [hrw]
          refine List.pairwise_cons.mpr ⟨?_, ih hrest⟩
          intro z hz
          rcases mem_ssInsert.mp hz with rfl | hz
          · exact h3
          · exact hy z hz

theorem ssErase_sublist (a : String) (l : List String) : (ssErase a l).Sublist l := by
  induction l with
  | nil => simp [ssErase]
  | cons y rest ih =>
      by_cases h : y = a
      · simp [ssErase, h]
      · simp [ssErase, h]
        exact ih

theorem mem_of_mem_ssErase {x a : String} {l : List String}
    (h : x ∈ ssErase a l) : x ∈ l :=
  (ssErase_sublist a l).mem h

theorem mem_ssErase_of_ne {x a : String} {l : List String}
    (hx : x ∈ l) (hne : x ≠ a) : x ∈ ssErase a l := by
  induction l with
  | nil => simp at hx
  | cons y rest ih =>
      rcases List.mem_cons.mp hx with rfl | hx
      · simp [ssErase, hne]
      · by_cases h : y = a
        · simpa [ssErase, h] using hx
        · simp [ssErase, h]
          by_cases hxy : x = y
          · exact Or.inl hxy
          · exact Or.inr (ih hx)

theorem not_mem_ssErase_self {a : String} {l : List String}
    (hnd : l.Nodup) : a ∉ ssErase a l := by
  induction l with
  | nil => simp [ssErase]
  | cons y rest ih =>
      rcases List.nodup_cons.mp hnd with ⟨hy, hrest⟩
      by_cases h : y = a
      · subst h; simpa [ssErase] using hy
      · simp [ssErase, h]
        exact ⟨fun hh => h hh.symm, ih hrest⟩

theorem pairwise_ssErase (a : String) (l : List String)
    (h : l.Pairwise (fun x y => pyStrLt x y = true)) :
    (ssErase a l).Pairwise (fun x y => pyStrLt x y = true) :=
  h.sublist (ssErase_sublist a l)

theorem pairwise_lt_nodup {l : List String}
    (h : l.Pairwise (fun x y => pyStrLt x y = true)) : l.Nodup := by
  induction h with
  | nil => exact List.nodup_nil
  | cons hr _ ih =>
      refine List.nodup_cons.mpr ⟨fun hm => ?_, ih⟩
      have := hr _ hm
      rw [pyStrLt_irrefl] at this
      exact Bool.false_ne_true this

/-! ## Lemmas: the child-processing fold of the sort loop -/

theorem applyChild_of_mem (keys : List String) (av : List String)
    (lv : String → Int) (c : String) (hc : c ∈ keys) :
    applyChild keys (av, lv) c =
      (if lv c - 1 = 0 then ssInsert c av else av,
       fun y => if y = c then lv y - 1 else lv y) := by
  simp only [applyChild, if_pos hc]
  by_cases hz : lv c - 1 = 0 <;> simp [hz]

theorem applyChild_of_not_mem (keys : List String) (av : List String)
    (lv : String → Int) (c : String) (hc : c ∉ keys) :
    applyChild keys (av, lv) c = (av, lv) := by
  simp [applyChild, hc]

theorem applyChildren_cons (keys : List String) (c : String) (rest : List String)
    (st : List String × (String → Int)) :
    applyChildren keys (c :: rest) st =
      applyChildren keys rest (applyChild keys st c) := by
  simp [applyChildren, List.foldl_cons]

theorem childCount_cons (keys : List String) (c : String) (rest : List String)
    (x : String) :
    childCount keys (c :: rest) x =
      childCount keys rest x + (if c ∈ keys ∧ x = c then 1 else 0) := by
  simp only [childCount, List.filter_cons]
  by_cases hc : c ∈ keys
  · by_cases hxc : x = c <;> simp [hc, hxc, List.count_cons]
  · simp [hc]

theorem applyChildren_live (keys : List String) (cs : List String)
    (av : List String) (lv : String → Int) (x : String) :
    (applyChildren keys cs (av, lv)).2 x = lv x - (childCount keys cs x : Int) := by
  induction cs generalizing av lv with
  | nil => simp [applyChildren, childCount]
  | cons c rest ih =>
      rw [applyChildren_cons]
      by_cases hc : c ∈ keys
      · rw [applyChild_of_mem keys av lv c hc, ih, childCount_cons]
        by_cases hxc : x = c
        · subst hxc
          simp [hc]
          omega
        · simp [hc, hxc]
      · rw [applyChild_of_not_mem keys av lv c hc, ih, childCount_cons]
        simp [hc]

theorem applyChildren_avail (keys : List String) (cs : List String)
    (av : List String) (lv : String → Int) (x : String) :
    x ∈ (applyChildren keys cs (av, lv)).1 ↔
      x ∈ av ∨ (x ∈ keys ∧ 1 ≤ lv x ∧ lv x ≤ (childCount keys cs x : Int)) := by
  induction cs generalizing av lv with
  | nil =>
      simp only [applyChildren, List.foldl_nil, childCount, List.filter_nil,
        List.count_nil, Nat.cast_zero, iff_self_or]
      rintro ⟨-, h2, h3⟩
      omega
  | cons c rest ih =>
      rw [applyChildren_cons]
      by_cases hc : c ∈ keys
      · rw [applyChild_of_mem keys av lv c hc]
        by_cases hxc : x = c
        · subst hxc
          by_cases hz : lv x - 1 = 0
          · rw [if_pos hz, ih, childCount_cons]
            simp only [mem_ssInsert, hc, true_and]
            simp only [eq_self_iff_true, if_true, and_true, true_or, or_true,
              true_iff]
            exact Or.inr ⟨by omega, by omega⟩
          · rw [if_neg hz, ih, childCount_cons]
            simp only [mem_ssInsert, hc, true_and, eq_self_iff_true, if_true,
              and_true]
            constructor <;> rintro (h | ⟨h1, h2⟩) <;>
              first
                | exact Or.inl h
                | exact Or.inr ⟨by omega, by omega⟩
        · by_cases hz : lv c - 1 = 0
          · rw [if_pos hz, ih, childCount_cons]
            simp only [mem_ssInsert, hxc, false_or]
            simp [hxc]
          · rw [if_neg hz, ih, childCount_cons]
            simp [hxc]
      · rw [applyChild_of_not_mem keys av lv c hc, ih, childCount_cons]
        simp [hc]

theorem applyChildren_pairwise (keys : List String) (cs : List String)
    (av : List String) (lv : String → Int)
    (h : av.Pairwise (fun x y => pyStrLt x y = true)) :
    (applyChildren keys cs (av, lv)).1.Pairwise (fun x y => pyStrLt x y = true) := by
  induction cs generalizing av lv with
  | nil => simpa [applyChildren]
  | cons c rest ih =>
      rw [applyChildren_cons]
      by_cases hc : c ∈ keys
      · rw [applyChild_of_mem keys av lv c hc]
        by_cases hz : lv c - 1 = 0
        · rw [if_pos hz]
          exact ih _ _ (pairwise_ssInsert c av h)
        · rw [if_neg hz]
          exact ih _ _ h
      · rw [applyChild_of_not_mem keys av lv c hc]
        exact ih _ _ h

/-! ## Lemmas: selection and the initial state -/

theorem pickNext_mem {m : List (String × Node)} {e : List (String × List String)}
    {st : SortSt} {sel : String} (h : pickNext m e st = some sel) :
    sel ∈ st.avail := by
  unfold pickNext at h
  split at h
  · exact List.mem_of_mem_head? (by simp [h])
  · split at h
    · rename_i c hfind
      simp only [Option.some.injEq] at h
      subst h
      have := List.find?_some hfind
      simp only [Bool.and_eq_true, decide_eq_true_eq] at this
      exact this.1
    · split at h
      · rename_i n hfind
        simp only [Option.some.injEq] at h
        subst h
        exact List.mem_of_find?_eq_some hfind
      · exact List.mem_of_mem_head? (by simp [h])

theorem pickNext_isSome {m : List (String × Node)} {e : List (String × List String)}
    {st : SortSt} (h : st.avail ≠ []) : ∃ sel, pickNext m e st = some sel := by
  unfold pickNext
  have hhead : ∃ b, st.avail.head? = some b := by
    cases havail : st.avail with
    | nil => exact absurd havail h
    | cons b tl => exact ⟨b, rfl⟩
  split
  · exact hhead
  · split
    · rename_i c hfind
      exact ⟨c, rfl⟩
    · split
      · rename_i n hfind
        exact ⟨n, rfl⟩
      · exact hhead

theorem mem_foldl_ssInsert (l : List String) (s0 : List String) (x : String) :
    x ∈ l.foldl (fun s n => ssInsert n s) s0 ↔ x ∈ s0 ∨ x ∈ l := by
  induction l generalizing s0 with
  | nil => simp
  | cons a rest ih =>
      simp only [List.foldl_cons, ih, mem_ssInsert, List.mem_cons]
      tauto

theorem pairwise_foldl_ssInsert (l : List String) (s0 : List String)
    (h : s0.Pairwise (fun x y => pyStrLt x y = true)) :
    (l.foldl (fun s n => ssInsert n s) s0).Pairwise (fun x y => pyStrLt x y = true) := by
  induction l generalizing s0 with
  | nil => simpa
  | cons a rest ih => exact ih _ (pairwise_ssInsert a s0 h)

theorem mem_initAvail (m : List (String × Node)) (x : String) :
    x ∈ initAvail m ↔ x ∈ akeys m ∧ inDeg m x = 0 := by
  unfold initAvail
  rw [mem_foldl_ssInsert]
  simp

theorem pairwise_initAvail (m : List (String × Node)) :
    (initAvail m).Pairwise (fun x y => pyStrLt x y = true) :=
  pairwise_foldl_ssInsert _ _ List.Pairwise.nil

/-- Initial state of the sort loop. -/
theorem WInv_init (m : List (String × Node)) :
    WInv m { result := [], avail := initAvail m,
             live := fun n => (inDeg m n : Int) } := by
  refine ⟨List.nodup_nil, by simp, ?_, pairwise_initAvail m, by simp, ?_⟩
  · intro n hn
    exact ⟨(mem_initAvail m n).mp hn |>.1, by simp⟩
  · intro n hn
    have := (mem_initAvail m n).mp hn
    simp [this.2]

/-! ## Lemmas: one step of the sort loop -/

theorem WInv_step {m : List (String × Node)} {e : List (String × List String)}
    {st : SortSt} {sel : String} (h : WInv m st) (hsel : sel ∈ st.avail) :
    WInv m (stepState m e st sel) := by
  obtain ⟨hnd, hrk, hav, hpw, hlr, hla⟩ := h
  have hselk := (hav sel hsel).1
  have hselr := (hav sel hsel).2
  have hnd' : st.avail.Nodup := pairwise_lt_nodup hpw
  refine ⟨?_, ?_, ?_, ?_, ?_, ?_⟩
  · simpa [stepState, List.nodup_append] using ⟨hnd, hselr⟩
  · intro n hn
    rcases List.mem_append.mp hn with hn | hn
    · exact hrk n hn
    · simp at hn
      subst hn
      exact hselk
  · intro n hn
    simp only [stepState] at hn
    rw [applyChildren_avail] at hn
    rcases hn with hn | ⟨hk, h1, -⟩
    · have hna : n ∈ st.avail := mem_of_mem_ssErase hn
      have hne : n ≠ sel := by
        intro hne
        subst hne
        exact not_mem_ssErase_self hnd' hn
      refine ⟨(hav n hna).1, ?_⟩
      simp only [stepState, List.mem_append, List.mem_singleton]
      rintro (hc | hc)
      · exact (hav n hna).2 hc
      · exact hne hc
    · have hnr : n ∉ st.result := fun hc => by
        have := hlr n hc
        omega
      have hne : n ≠ sel := by
        intro hc
        subst hc
        have := hla n hsel
        omega
      refine ⟨hk, ?_⟩
      simp only [stepState, List.mem_append, List.mem_singleton]
      rintro (hc | hc)
      · exact hnr hc
      · exact hne hc
  · exact applyChildren_pairwise _ _ _ _ (pairwise_ssErase sel st.avail hpw)
  · intro n hn
    simp only [stepState]
    rw [applyChildren_live]
    rcases List.mem_append.mp hn with hn | hn
    · have := hlr n hn
      have : (0 : Int) ≤ (childCount (akeys m) (childrenList e sel) n : Int) :=
        Int.ofNat_nonneg _
      omega
    · simp at hn
      have h3 := hla n (by rw [hn]; exact hsel)
      have h4 : (0 : Int) ≤ (childCount (akeys m) (childrenList e sel) n : Int) :=
        Int.ofNat_nonneg _
      omega
  · intro n hn
    simp only [stepState] at hn ⊢
    rw [applyChildren_avail] at hn
    rw [applyChildren_live]
    rcases hn with hn | ⟨-, -, h2⟩
    · have := hla n (mem_of_mem_ssErase hn)
      have : (0 : Int) ≤ (childCount (akeys m) (childrenList e sel) n : Int) :=
        Int.ofNat_nonneg _
      omega
    · omega

theorem sortLoop_WInv (m : List (String × Node)) (e : List (String × List String))
    (fuel : Nat) (st : SortSt) (h : WInv m st) :
    WInv m (sortLoop m e fuel st) := by
  induction fuel generalizing st with
  | zero => simpa [sortLoop]
  | succ fuel ih =>
      rw [sortLoop]
      by_cases hav : st.avail = []
      · simpa [hav]
      · rcases pickNext_isSome (m := m) (e := e) hav with ⟨sel, hsel⟩
        simp only [hav, if_false, hsel]
        exact ih _ (WInv_step h (pickNext_mem hsel))

theorem sortLoop_avail_nil (m : List (String × Node))
    (e : List (String × List String)) (fuel : Nat) (st : SortSt)
    (h : st.avail = []) : sortLoop m e fuel st = st := by
  cases fuel with
  | zero => rfl
  | succ fuel => simp [sortLoop, h]

theorem sortLoop_add (m : List (String × Node)) (e : List (String × List String))
    (a b : Nat) (st : SortSt) :
    sortLoop m e (a + b) st = sortLoop m e a (sortLoop m e b st) := by
  induction b generalizing st with
  | zero => rfl
  | succ b ih =>
      have h1 : a + (b + 1) = (a + b) + 1 := rfl
      rw [h1, sortLoop]
      by_cases hav : st.avail = []
      · rw [sortLoop_avail_nil m e (b+1) st hav, sortLoop_avail_nil m e a st hav,
          if_pos hav]
      · rcases pickNext_isSome (m := m) (e := e) hav with ⟨sel, hsel⟩
        simp only [hav, if_false, hsel]
        rw [ih]
        congr 1
        rw [sortLoop]
        simp [hav, hsel]

theorem sortLoop_drains (m : List (String × Node)) (e : List (String × List String))
    (fuel : Nat) (st : SortSt) (h : WInv m st)
    (hfuel : ((akeys m).toFinset \ st.result.toFinset).card ≤ fuel) :
    (sortLoop m e fuel st).avail = [] := by
  induction fuel generalizing st with
  | zero =>
      rw [sortLoop]
      rcases h with ⟨-, -, hav, -, -, -⟩
      rw [List.eq_nil_iff_forall_not_mem]
      intro n hn
      have h1 : n ∈ (akeys m).toFinset \ st.result.toFinset := by
        simp only [Finset.mem_sdiff, List.mem_toFinset]
        exact ⟨(hav n hn).1, (hav n hn).2⟩
      have h2 : 0 < ((akeys m).toFinset \ st.result.toFinset).card :=
        Finset.card_pos.mpr ⟨n, h1⟩
      omega
  | succ fuel ih =>
      rw [sortLoop]
      by_cases hav : st.avail = []
      · simp [hav]
      · rcases pickNext_isSome (m := m) (e := e) hav with ⟨sel, hsel⟩
        simp only [hav, if_false, hsel]
        have hselm := pickNext_mem hsel
        have hselk := (h.2.2.1 sel hselm).1
        have hselr := (h.2.2.1 sel hselm).2
        apply ih _ (WInv_step h hselm)
        have h1 : (stepState m e st sel).result.toFinset =
            insert sel st.result.toFinset := by
          simp only [stepState, List.toFinset_append, List.toFinset_cons,
            List.toFinset_nil, insert_emptyc_eq]
          rw [Finset.union_comm]
          exact Finset.ext (fun x => by simp)
        rw [h1, Finset.sdiff_insert]
        have h2 : sel ∈ (akeys m).toFinset \ st.result.toFinset := by
          simp only [Finset.mem_sdiff, List.mem_toFinset]
          exact ⟨hselk, hselr⟩
        rw [Finset.card_erase_of_mem h2]
        omega

/-! ## Lemmas: live counts under the mirror condition -/

theorem countP_mem_append_singleton (L : List String) (R : List String)
    (sel : String) (h : sel ∉ R) :
    L.countP (fun p => decide (p ∈ R ++ [sel])) =
      L.countP (fun p => decide (p ∈ R)) + L.count sel := by
  induction L with
  | nil => simp
  | cons x L ih =>
      rw [List.countP_cons, List.countP_cons, List.count_cons, ih]
      by_cases hx : x = sel
      · subst hx
        simp [h]
        omega
      · have h1 : (decide (x ∈ R ++ [sel])) = decide (x ∈ R) := by
          simp [List.mem_append, hx]
        rw [h1]
        have h2 : (x == sel) = false := by simp [hx]
        simp [h2]
        omega

theorem liveSpec_nonneg (m : List (String × Node)) (R : List String) (c : String) :
    0 ≤ liveSpec m R c := by
  unfold liveSpec inDeg
  have := List.countP_le_length (l := parentsIn m c)
    (p := fun p => decide (p ∈ R))
  omega

theorem liveSpec_append (m : List (String × Node)) (R : List String)
    (sel c : String) (h : sel ∉ R) :
    liveSpec m (R ++ [sel]) c =
      liveSpec m R c - ((parentsIn m c).count sel : Int) := by
  unfold liveSpec
  rw [countP_mem_append_singleton _ _ _ h]
  push_cast
  ring

theorem liveSpec_zero_iff (m : List (String × Node)) (R : List String) (c : String) :
    liveSpec m R c = 0 ↔ ∀ p ∈ parentsIn m c, p ∈ R := by
  unfold liveSpec inDeg
  have hle := List.countP_le_length (l := parentsIn m c)
    (p := fun p => decide (p ∈ R))
  constructor
  · intro h
    have : (parentsIn m c).countP (fun p => decide (p ∈ R)) =
        (parentsIn m c).length := by omega
    have := List.countP_eq_length.mp this
    intro p hp
    simpa using this p hp
  · intro h
    have : (parentsIn m c).countP (fun p => decide (p ∈ R)) =
        (parentsIn m c).length :=
      List.countP_eq_length.mpr (fun a ha => by simpa using h a ha)
    omega

theorem childCount_eq_count_of_mem (keys : List String) (cs : List String)
    (x : String) (hx : x ∈ keys) :
    childCount keys cs x = cs.count x := by
  unfold childCount
  exact List.count_filter (by simpa using hx)

theorem childCount_eq_zero_of_not_mem (keys : List String) (cs : List String)
    (x : String) (hx : x ∉ keys) :
    childCount keys cs x = 0 := by
  unfold childCount
  refine List.count_eq_zero_of_not_mem (fun hc => ?_)
  have := List.of_mem_filter hc
  simp at this
  exact hx this

theorem parentsIn_nil_of_not_key (m : List (String × Node)) (c : String)
    (hc : c ∉ akeys m) : parentsIn m c = [] := by
  unfold parentsIn parentsOf
  have : alookup m c = none := by
    induction m with
    | nil => rfl
    | cons kv rest ih =>
        have h1 : kv.1 ≠ c := by
          intro h
          exact hc (by simp [akeys, h])
        cases kv with
        | mk k v =>
            simp only [alookup, if_neg (by simpa using h1)]
            exact ih (fun hm => hc (by simp [akeys] at hm ⊢; exact Or.inr hm))
  simp [this]

/-- The initial sort state satisfies the mirror bookkeeping invariant. -/
theorem MInv_init (m : List (String × Node)) :
    MInv m { result := [], avail := initAvail m,
             live := fun n => (inDeg m n : Int) } := by
  refine ⟨?_, ?_, ?_, ?_⟩
  · intro c
    simp [liveSpec]
  · intro n hn p hp
    have h0 := (mem_initAvail m n).mp hn |>.2
    unfold inDeg at h0
    rw [List.length_eq_zero] at h0
    rw [h0] at hp
    simp at hp
  · intro c hc
    simp at hc
  · intro n hk hr ha
    have : inDeg m n ≠ 0 := by
      intro h0
      exact ha ((mem_initAvail m n).mpr ⟨hk, h0⟩)
    have h0 : (parentsIn m n).countP (fun p => decide (p ∈ ([] : List String))) = 0 :=
      List.countP_eq_zero.mpr (by simp)
    show (parentsIn m n).countP (fun p => decide (p ∈ ([] : List String))) < inDeg m n
    omega

/-- One loop step preserves the mirror bookkeeping invariant. -/
theorem MInv_step {m : List (String × Node)} {e : List (String × List String)}
    {st : SortSt} {sel : String} (hmir : HMirror m e) (hw : WInv m st)
    (hm : MInv m st) (hsel : sel ∈ st.avail) :
    MInv m (stepState m e st sel) := by
  obtain ⟨hnd, hrk, hav, hpw, hlr, hla⟩ := hw
  obtain ⟨hlive, havp, hord, hmiss⟩ := hm
  have hselk := (hav sel hsel).1
  have hselr := (hav sel hsel).2
  have hnd' : st.avail.Nodup := pairwise_lt_nodup hpw
  have hcc : ∀ c, (childCount (akeys m) (childrenList e sel) c : Int) =
      ((parentsIn m c).count sel : Int) := by
    intro c
    by_cases hc : c ∈ akeys m
    · rw [childCount_eq_count_of_mem _ _ _ hc]
      have := hmir sel c hselk hc
      omega
    · rw [childCount_eq_zero_of_not_mem _ _ _ hc,
        parentsIn_nil_of_not_key m c hc]
      simp
  have hlive' : ∀ c, (stepState m e st sel).live c =
      liveSpec m (stepState m e st sel).result c := by
    intro c
    simp only [stepState]
    rw [applyChildren_live, hlive c, liveSpec_append m _ _ _ hselr, hcc c]
  refine ⟨hlive', ?_, ?_, ?_⟩
  · intro n hn p hp
    have hn' := hn
    simp only [stepState] at hn'
    rw [applyChildren_avail] at hn'
    rcases hn' with hn' | ⟨hk, h1, h2⟩
    · have hna : n ∈ st.avail := mem_of_mem_ssErase hn'
      exact List.mem_append_left _ (havp n hna p hp)
    · have hz : (stepState m e st sel).live n = 0 := by
        simp only [stepState]
        rw [applyChildren_live]
        have h0 := liveSpec_nonneg m (stepState m e st sel).result n
        rw [← hlive' n] at h0
        simp only [stepState] at h0
        rw [applyChildren_live] at h0
        omega
      rw [hlive' n] at hz
      exact (liveSpec_zero_iff m _ n).mp hz p hp
  · intro c hc p hp
    simp only [stepState] at hc ⊢
    rcases List.mem_append.mp hc with hc | hc
    · rcases hord c hc p hp with ⟨hpr, hidx⟩
      refine ⟨List.mem_append_left _ hpr, ?_⟩
      rw [List.indexOf_append_of_mem hpr, List.indexOf_append_of_mem hc]
      exact hidx
    · simp at hc
      subst hc
      have hpr : p ∈ st.result := havp c hsel p hp
      refine ⟨List.mem_append_left _ hpr, ?_⟩
      rw [List.indexOf_append_of_mem hpr,
        List.indexOf_append_of_not_mem hselr, List.indexOf_cons_self]
      have := List.indexOf_lt_length.mpr hpr
      omega
  · intro n hk hr ha
    have hns : n ≠ sel := by
      intro h
      exact hr (by rw [h]; simp [stepState])
    have hnr : n ∉ st.result := by
      intro h
      exact hr (by simp only [stepState]; exact List.mem_append_left _ h)
    have hna : n ∉ st.avail := by
      intro h
      refine ha ?_
      simp only [stepState]
      rw [applyChildren_avail]
      exact Or.inl (mem_ssErase_of_ne h hns)
    have hold := hmiss n hk hnr hna
    have hlv : 1 ≤ st.live n := by
      rw [hlive n]
      unfold liveSpec inDeg
      unfold inDeg at hold
      omega
    have hnotadd : ¬(n ∈ akeys m ∧ 1 ≤ st.live n ∧
        st.live n ≤ (childCount (akeys m) (childrenList e sel) n : Int)) := by
      intro hadd
      refine ha ?_
      simp only [stepState]
      rw [applyChildren_avail]
      exact Or.inr hadd
    have hccn : (childCount (akeys m) (childrenList e sel) n : Int) < st.live n := by
      by_contra hcon
      push_neg at hcon
      exact hnotadd ⟨hk, hlv, hcon⟩
    have h1 : 1 ≤ liveSpec m (st.result ++ [sel]) n := by
      rw [liveSpec_append m _ _ _ hselr, ← hlive n, ← hcc n]
      omega
    simp only [stepState]
    unfold liveSpec inDeg at h1
    have hle := List.countP_le_length (l := parentsIn m n)
      (p := fun p => decide (p ∈ st.result ++ [sel]))
    unfold inDeg
    omega

theorem sortLoop_WMInv (m : List (String × Node)) (e : List (String × List String))
    (hmir : HMirror m e) (fuel : Nat) (st : SortSt) (hw : WInv m st)
    (hm : MInv m st) :
    WInv m (sortLoop m e fuel st) ∧ MInv m (sortLoop m e fuel st) := by
  induction fuel generalizing st with
  | zero => exact ⟨by simpa [sortLoop], by simpa [sortLoop]⟩
  | succ fuel ih =>
      rw [sortLoop]
      by_cases hav : st.avail = []
      · simp only [hav, if_true]
        exact ⟨hw, hm⟩
      · rcases pickNext_isSome (m := m) (e := e) hav with ⟨sel, hsel⟩
        simp only [hav, if_false, hsel]
        exact ih _ (WInv_step hw (pickNext_mem hsel))
          (MInv_step hmir hw hm (pickNext_mem hsel))

/-! ## Lemmas: the edge map built by `build_dag_from_parents` -/

theorem alookup_eq_none {β : Type} (m : List (String × β)) (c : String)
    (hc : c ∉ akeys m) : alookup m c = none := by
  induction m with
  | nil => rfl
  | cons kv rest ih =>
      cases kv with
      | mk k v =>
          have h1 : k ≠ c := fun h => hc (by simp [akeys, h])
          simp only [alookup, if_neg h1]
          exact ih (fun hm => hc (by simp [akeys] at hm ⊢; exact Or.inr hm))

theorem alookup_isSome_of_key {β : Type} (m : List (String × β)) (c : String)
    (hc : c ∈ akeys m) : ∃ v, alookup m c = some v := by
  induction m with
  | nil => simp [akeys] at hc
  | cons kv rest ih =>
      cases kv with
      | mk k v =>
          by_cases h : k = c
          · exact ⟨v, by simp [alookup, h]⟩
          · simp only [alookup, if_neg h]
            refine ih ?_
            simp [akeys] at hc
            rcases hc with hc | hc
            · exact absurd hc.symm h
            · simpa [akeys]

theorem count_childrenList_edgesUpsert (e : List (String × List String))
    (k v p c : String) :
    (childrenList (edgesUpsert e k v) p).count c =
      (childrenList e p).count c + if p = k ∧ c = v then 1 else 0 := by
  induction e with
  | nil =>
      simp only [edgesUpsert, childrenList, alookup]
      by_cases hp : k = p
      · subst hp
        simp only [if_pos rfl, Option.getD_some, Option.getD_none, List.count_nil]
        by_cases hc : c = v
        · simp [hc]
        · simp [hc, Ne.symm hc]
      · simp only [if_neg hp, Option.getD_none, List.count_nil]
        rw [if_neg (fun h => hp h.1.symm)]
  | cons kv rest ih =>
      cases kv with
      | mk k' l =>
          by_cases hk : k' = k
          · subst hk
            simp only [edgesUpsert, if_pos rfl, childrenList, alookup]
            by_cases hp : k' = p
            · subst hp
              simp only [if_pos rfl, Option.getD_some, List.count_append]
              by_cases hc : c = v
              · simp [hc]
              · simp [hc, Ne.symm hc]
            · simp only [if_neg hp, Option.getD_none]
              rw [if_neg (fun h => hp h.1.symm)]
              simp
          · simp only [edgesUpsert, if_neg hk, childrenList, alookup]
            by_cases hp : k' = p
            · subst hp
              have : ¬(k' = k ∧ c = v) := fun h => hk h.1
              simp [this]
            · simpa [hp, childrenList] using ih

theorem count_childrenList_parentFold (keys : List String) (ps : List String)
    (acc : List (String × List String)) (nid p c : String) :
    (childrenList
      (ps.foldl (fun acc2 q => if q ∈ keys then edgesUpsert acc2 q nid else acc2) acc)
      p).count c =
      (childrenList acc p).count c +
        if c = nid ∧ p ∈ keys then ps.count p else 0 := by
  induction ps generalizing acc with
  | nil => simp
  | cons q rest ih =>
      rw [List.foldl_cons]
      by_cases hq : q ∈ keys
      · rw [if_pos hq, ih, count_childrenList_edgesUpsert]
        rw [List.count_cons]
        by_cases hcn : c = nid
        · by_cases hpk : p ∈ keys
          · simp only [hcn, hpk, and_true, true_and, if_true]
            by_cases hpq : p = q
            · simp [hpq]
              omega
            · have : (p == q) = false := by simp [hpq]
              simp [hpq, this, Ne.symm hpq]
          · have h1 : ¬(p = q ∧ c = nid) := fun h => hpk (h.1 ▸ hq)
            simp [h1, hpk]
        · have h1 : ¬(p = q ∧ c = nid) := fun h => hcn h.2
          simp [h1, hcn]
      · rw [if_neg hq, ih]
        by_cases hcn : c = nid
        · by_cases hpk : p ∈ keys
          · have hpq : p ≠ q := fun h => hq (h ▸ hpk)
            have : (p == q) = false := by simp [hpq]
            simp [hcn, hpk, List.count_cons, this, Ne.symm hpq]
          · simp [hpk]
        · simp [hcn]

theorem count_childrenList_entryFold (keys : List String)
    (entries : List (String × Node)) (acc : List (String × List String))
    (p c : String) :
    (childrenList
      (entries.foldl
        (fun acc kv =>
          kv.2.parent_ids.foldl
            (fun acc2 q => if q ∈ keys then edgesUpsert acc2 q kv.1 else acc2)
            acc)
        acc)
      p).count c =
      (childrenList acc p).count c +
        if p ∈ keys then
          ((entries.filter (fun kv => decide (kv.1 = c))).map
            (fun kv => kv.2.parent_ids.count p)).sum
        else 0 := by
  induction entries generalizing acc with
  | nil => simp
  | cons kv rest ih =>
      rw [List.foldl_cons, ih, count_childrenList_parentFold]
      by_cases hpk : p ∈ keys
      · by_cases hc : kv.1 = c
        · simp [hpk, hc, List.filter_cons]
          omega
        · simp [hpk, hc, List.filter_cons]
          exact fun h => absurd h.symm hc
      · simp [hpk]

theorem parentsOf_eq_of_lookup (m : List (String × Node)) (c : String)
    (node : Node) (h : alookup m c = some node) :
    parentsOf m c = node.parent_ids := by
  simp [parentsOf, h]

theorem sum_filter_key (m : List (String × Node)) (hnd : (akeys m).Nodup)
    (p c : String) :
    ((m.filter (fun kv => decide (kv.1 = c))).map
      (fun kv => kv.2.parent_ids.count p)).sum = (parentsOf m c).count p := by
  induction m with
  | nil => simp [parentsOf, alookup]
  | cons kv rest ih =>
      cases kv with
      | mk k v =>
          have hnd2 : (k :: akeys rest).Nodup := hnd
          have hnd' : (akeys rest).Nodup := (List.nodup_cons.mp hnd2).2
          by_cases hc : k = c
          · subst hc
            have hknr : k ∉ akeys rest := (List.nodup_cons.mp hnd2).1
            have hfil : rest.filter (fun kv => decide (kv.1 = k)) = [] := by
              rw [List.filter_eq_nil_iff]
              intro kv hkv
              simp only [decide_eq_true_eq]
              intro h
              exact hknr (h ▸ List.mem_map_of_mem Prod.fst hkv)
            simp [List.filter_cons, hfil, parentsOf, alookup]
          · simp only [List.filter_cons, decide_eq_true_eq, hc, if_false]
            rw [ih hnd']
            have : parentsOf ((k, v) :: rest) c = parentsOf rest c := by
              simp [parentsOf, alookup, hc]
            rw [this]

theorem count_childrenList_edgesOf (m : List (String × Node))
    (hnd : (akeys m).Nodup) (p c : String) :
    (childrenList (edgesOf m) p).count c =
      if p ∈ akeys m then (parentsOf m c).count p else 0 := by
  unfold edgesOf
  rw [count_childrenList_entryFold]
  simp only [childrenList, alookup, Option.getD_none, List.count_nil, Nat.zero_add]
  by_cases hpk : p ∈ akeys m
  · rw [if_pos hpk, if_pos hpk, sum_filter_key m hnd]
  · simp [hpk]

theorem hmirror_edgesOf (m : List (String × Node)) (hnd : (akeys m).Nodup) :
    HMirror m (edgesOf m) := by
  intro p c hp hc
  rw [count_childrenList_edgesOf m hnd, if_pos hp]
  unfold parentsIn
  rw [List.count_filter (by simpa using hp)]

theorem mem_childrenList_edgesOf (m : List (String × Node))
    (hnd : (akeys m).Nodup) (p c : String) :
    c ∈ childrenList (edgesOf m) p ↔
      p ∈ akeys m ∧ c ∈ akeys m ∧ p ∈ parentsOf m c := by
  rw [← List.count_pos_iff, count_childrenList_edgesOf m hnd]
  by_cases hpk : p ∈ akeys m
  · rw [if_pos hpk]
    simp only [hpk, true_and]
    rw [List.count_pos_iff]
    constructor
    · intro h
      refine ⟨?_, h⟩
      by_contra hck
      rw [parentsOf, alookup_eq_none m c hck] at h
      simp at h
    · exact fun h => h.2
  · simp [hpk]

/-! ## Main facts about `topological_sort_subdag` -/

theorem parentsIn_key {m : List (String × Node)} {c p : String}
    (hp : p ∈ parentsIn m c) : p ∈ akeys m := by
  have := List.of_mem_filter hp
  simpa using this

theorem topo_sort_nodup (m : List (String × Node))
    (e : List (String × List String)) :
    (topological_sort_subdag m e).Nodup := by
  by_cases hm : m = []
  · simp [topological_sort_subdag, hm]
  · unfold topological_sort_subdag
    rw [if_neg hm]
    exact (sortLoop_WInv m e m.length _ (WInv_init m)).1

theorem topo_sort_subset (m : List (String × Node))
    (e : List (String × List String)) :
    ∀ x ∈ topological_sort_subdag m e, x ∈ akeys m := by
  by_cases hm : m = []
  · simp [topological_sort_subdag, hm]
  · unfold topological_sort_subdag
    rw [if_neg hm]
    exact (sortLoop_WInv m e m.length _ (WInv_init m)).2.1

theorem sortLoop_final_card (m : List (String × Node)) :
    ((akeys m).toFinset \ (([] : List String)).toFinset).card ≤ m.length := by
  simp only [List.toFinset_nil, Finset.sdiff_empty]
  calc (akeys m).toFinset.card ≤ (akeys m).length := (akeys m).toFinset_card_le
    _ = m.length := by simp [akeys]

theorem topo_sort_ordered (m : List (String × Node)) (hnd : (akeys m).Nodup) :
    Ordered m (topological_sort_subdag m (edgesOf m)) := by
  by_cases hm : m = []
  · intro c hc
    simp [topological_sort_subdag, hm] at hc
  · unfold topological_sort_subdag
    rw [if_neg hm]
    exact ((sortLoop_WMInv m (edgesOf m) (hmirror_edgesOf m hnd) m.length _
      (WInv_init m) (MInv_init m)).2).2.2.1

theorem topo_sort_complete (m : List (String × Node)) (hnd : (akeys m).Nodup)
    (rank : String → Nat)
    (hrank : ∀ c ∈ akeys m, ∀ p ∈ parentsIn m c, rank p < rank c) :
    ∀ n ∈ akeys m, n ∈ topological_sort_subdag m (edgesOf m) := by
  by_cases hm : m = []
  · subst hm
    intro n hn
    simp [akeys] at hn
  · unfold topological_sort_subdag
    rw [if_neg hm]
    intro n hn
    set final := sortLoop m (edgesOf m) m.length
      { result := [], avail := initAvail m,
        live := fun n => (inDeg m n : Int) } with hfinal
    have hwm := sortLoop_WMInv m (edgesOf m) (hmirror_edgesOf m hnd) m.length
      { result := [], avail := initAvail m, live := fun n => (inDeg m n : Int) }
      (WInv_init m) (MInv_init m)
    rw [← hfinal] at hwm
    have havail : final.avail = [] := by
      rw [hfinal]
      exact sortLoop_drains m (edgesOf m) m.length _ (WInv_init m)
        (sortLoop_final_card m)
    by_contra hcon
    have hS : ((akeys m).toFinset.filter (fun x => x ∉ final.result)).Nonempty := by
      refine ⟨n, ?_⟩
      simp only [Finset.mem_filter, List.mem_toFinset]
      exact ⟨hn, hcon⟩
    obtain ⟨n0, hn0, hmin⟩ :=
      ((akeys m).toFinset.filter (fun x => x ∉ final.result)).exists_min_image
        rank hS
    simp only [Finset.mem_filter, List.mem_toFinset] at hn0
    have hpar : ∀ p ∈ parentsIn m n0, p ∈ final.result := by
      intro p hp
      by_contra hpc
      have hpS : p ∈ (akeys m).toFinset.filter (fun x => x ∉ final.result) := by
        simp only [Finset.mem_filter, List.mem_toFinset]
        exact ⟨parentsIn_key hp, hpc⟩
      have h1 := hmin p hpS
      have h2 := hrank n0 hn0.1 p hp
      omega
    have hcnt : (parentsIn m n0).countP (fun p => decide (p ∈ final.result)) =
        inDeg m n0 := by
      unfold inDeg
      exact List.countP_eq_length.mpr (fun a ha => by simpa using hpar a ha)
    have hmiss := hwm.2.2.2.2 n0 hn0.1 hn0.2
      (by rw [havail]; exact List.not_mem_nil n0)
    omega

/-- Every strict ancestry step chain forces strictly decreasing output
indices, given the ordering property. -/
theorem ancPlus_index_lt {m : List (String × Node)} {l : List String}
    (hord : Ordered m l) {x y : String} (h : AncPlus m x y) (hx : x ∈ l) :
    y ∈ l ∧ l.indexOf y < l.indexOf x := by
  induction h with
  | single hstep => exact hord _ hx _ hstep
  | tail hxy hstep ih =>
      rcases ih with ⟨hb, hbi⟩
      rcases hord _ hb _ hstep with ⟨hz, hzi⟩
      exact ⟨hz, by omega⟩

theorem not_mem_sort_of_cycle_ancestor (m : List (String × Node))
    (hnd : (akeys m).Nodup) (n a : String) (h1 : AncStar m n a)
    (h2 : AncPlus m a a) :
    n ∉ topological_sort_subdag m (edgesOf m) := by
  intro hn
  have hord := topo_sort_ordered m hnd
  have ha : a ∈ topological_sort_subdag m (edgesOf m) := by
    rcases (Relation.reflTransGen_iff_eq_or_transGen.mp h1) with h | h
    · exact h ▸ hn
    · exact (ancPlus_index_lt hord h hn).1
  have := ancPlus_index_lt hord h2 ha
  omega

/-! ## Claim theorems for the topological sort -/

/-- C1, counterexample: for `node_map` with two parentless nodes `a`, `b`
and `edges` recording the single edge `b → a` (an acyclic pair that is,
however, not the mirror of `parent_ids`), the sort emits `a` before `b`,
violating the claimed edge-order property while both endpoints are keys. -/
theorem claim_C1_counterexample :
    topological_sort_subdag [("a", {}), ("b", {})] [("b", ["a"])] = ["a", "b"] ∧
    "a" ∈ childrenList [("b", ["a"])] "b" ∧
    "b" ∈ akeys [("a", ({} : Node)), ("b", ({} : Node))] ∧
    "a" ∈ akeys [("a", ({} : Node)), ("b", ({} : Node))] ∧
    parentsIn [("a", ({} : Node)), ("b", ({} : Node))] "a" = [] ∧
    parentsIn [("a", ({} : Node)), ("b", ({} : Node))] "b" = [] ∧
    ¬ ((topological_sort_subdag [("a", {}), ("b", {})] [("b", ["a"])]).indexOf "b" <
       (topological_sort_subdag [("a", {}), ("b", {})] [("b", ["a"])]).indexOf "a") := by
  decide

/-- C1 (amended): for every `node_map` with distinct keys whose parent graph
is acyclic (witnessed by a rank function), and with `edges` derived from
`node_map` exactly as `build_dag_from_parents` derives them,
`topological_sort_subdag` returns a permutation of the keys in which, for
every recorded edge `p → c`, `p` appears at a strictly smaller index than
`c`. -/
theorem claim_C1 (m : List (String × Node)) (hnd : (akeys m).Nodup)
    (rank : String → Nat)
    (hrank : ∀ c ∈ akeys m, ∀ p ∈ parentsIn m c, rank p < rank c) :
    (topological_sort_subdag m (edgesOf m)).Perm (akeys m) ∧
    ∀ p c, c ∈ childrenList (edgesOf m) p →
      (topological_sort_subdag m (edgesOf m)).indexOf p <
        (topological_sort_subdag m (edgesOf m)).indexOf c := by
  have hsub := topo_sort_subset m (edgesOf m)
  have hcomp := topo_sort_complete m hnd rank hrank
  have hndout := topo_sort_nodup m (edgesOf m)
  constructor
  · rw [List.perm_iff_count]
    intro x
    by_cases hx : x ∈ akeys m
    · rw [List.count_eq_one_of_mem hndout (hcomp x hx),
        List.count_eq_one_of_mem hnd hx]
    · rw [List.count_eq_zero_of_not_mem (fun hc => hx (hsub x hc)),
        List.count_eq_zero_of_not_mem hx]
  · intro p c hedge
    rcases (mem_childrenList_edgesOf m hnd p c).mp hedge with ⟨hpk, hck, hppar⟩
    have hpin : p ∈ parentsIn m c :=
      List.mem_filter.mpr ⟨hppar, by simpa using hpk⟩
    have hcs : c ∈ topological_sort_subdag m (edgesOf m) := hcomp c hck
    exact (topo_sort_ordered m hnd c hcs p hpin).2

/-- C1 witness: a two-node chain store with its derived edges. -/
theorem claim_C1_witness :
    (topological_sort_subdag [("a", ({} : Node)), ("b", { parent_ids := ["a"] })]
      (edgesOf [("a", ({} : Node)), ("b", { parent_ids := ["a"] })])).Perm
      (akeys [("a", ({} : Node)), ("b", { parent_ids := ["a"] })]) ∧
    (topological_sort_subdag [("a", ({} : Node)), ("b", { parent_ids := ["a"] })]
      (edgesOf [("a", ({} : Node)), ("b", { parent_ids := ["a"] })])).indexOf "a" <
      (topological_sort_subdag [("a", ({} : Node)), ("b", { parent_ids := ["a"] })]
        (edgesOf [("a", ({} : Node)), ("b", { parent_ids := ["a"] })])).indexOf "b" := by
  have h := claim_C1 [("a", ({} : Node)), ("b", { parent_ids := ["a"] })]
    (by decide) (fun s => if s = "a" then 0 else 1) (by decide)
  exact ⟨h.1, h.2 "a" "b" (by decide)⟩

/-- C10, counterexample: with `node_map` making `b` its own parent (a cycle)
but `edges` (not the mirror of `parent_ids`) recording the edge `a → b`, the
sort emits the cycle node `b` instead of omitting it. -/
theorem claim_C10_counterexample :
    topological_sort_subdag [("a", {}), ("b", { parent_ids := ["b"] })]
      [("a", ["b"])] = ["a", "b"] ∧
    "b" ∈ parentsIn [("a", ({} : Node)), ("b", { parent_ids := ["b"] })] "b" ∧
    "b" ∈ topological_sort_subdag [("a", {}), ("b", { parent_ids := ["b"] })]
      [("a", ["b"])] := by
  decide

/-- C10 (amended): for every `(node_map, edges)` input with distinct keys,
the sort loop terminates (`node_map.length` fuel is enough: more fuel does
not change the state), and the output is duplicate-free with every emitted
id a key of `node_map`; and when `edges` is derived from `node_map` as
`build_dag_from_parents` derives them, every node lying on a parent cycle or
reachable only through one (i.e. having an ancestor that lies on a cycle) is
omitted from the output. -/
theorem claim_C10 (m : List (String × Node)) (e : List (String × List String))
    (hnd : (akeys m).Nodup) :
    (∀ k, sortLoop m e (m.length + k)
        { result := [], avail := initAvail m, live := fun n => (inDeg m n : Int) } =
      sortLoop m e m.length
        { result := [], avail := initAvail m, live := fun n => (inDeg m n : Int) }) ∧
    (topological_sort_subdag m e).Nodup ∧
    (∀ x ∈ topological_sort_subdag m e, x ∈ akeys m) ∧
    (∀ n a, AncStar m n a → AncPlus m a a →
      n ∉ topological_sort_subdag m (edgesOf m)) := by
  refine ⟨?_, topo_sort_nodup m e, topo_sort_subset m e,
    fun n a h1 h2 => not_mem_sort_of_cycle_ancestor m hnd n a h1 h2⟩
  intro k
  have hdrain : (sortLoop m e m.length
      { result := [], avail := initAvail m,
        live := fun n => (inDeg m n : Int) }).avail = [] :=
    sortLoop_drains m e m.length _ (WInv_init m) (sortLoop_final_card m)
  have h1 : m.length + k = k + m.length := by omega
  rw [h1, sortLoop_add]
  exact sortLoop_avail_nil m e k _ hdrain

/-- C10 witness: the two-node inconsistent-edges input of the counterexample
satisfies the key-distinctness hypothesis. -/
theorem claim_C10_witness :
    (topological_sort_subdag [("a", ({} : Node)), ("b", { parent_ids := ["b"] })]
      [("a", ["b"])]).Nodup ∧
    "b" ∉ topological_sort_subdag [("a", ({} : Node)), ("b", { parent_ids := ["b"] })]
      (edgesOf [("a", ({} : Node)), ("b", { parent_ids := ["b"] })]) := by
  have h := claim_C10 [("a", ({} : Node)), ("b", { parent_ids := ["b"] })]
    [("a", ["b"])] (by decide)
  refine ⟨h.2.1, h.2.2.2 "b" "b" Relation.ReflTransGen.refl ?_⟩
  exact Relation.TransGen.single
    (show ("b" : String) ∈ parentsIn
      [("a", ({} : Node)), ("b", { parent_ids := ["b"] })] "b" by decide)

/-! ## Lemmas: chains (claim C5) -/

theorem pickNext_singleton {m : List (String × Node)}
    {e : List (String × List String)} {st : SortSt} {y : String}
    (hav : st.avail = [y]) : pickNext m e st = some y := by
  unfold pickNext
  rw [hav]
  rcases hlast : st.result.getLast? with - | last
  · rfl
  · rcases h1 : (childrenList e last).find?
        (fun c => decide (c ∈ [y]) && (inDeg m c == 1)) with - | c
    · rcases h2 : List.find? (fun n => (inDeg m n == 1) && (outDeg m e n == 1)) [y]
          with - | n
      · simp only [List.mem_singleton] at h1
        simp [h1, h2]
      · have hny := List.mem_of_find?_eq_some h2
        simp only [List.mem_singleton] at hny
        simp only [List.mem_singleton] at h1
        simp [h1, h2, hny]
    · have hcy := List.find?_some h1
      simp only [Bool.and_eq_true, decide_eq_true_eq, List.mem_singleton] at hcy
      simp only [List.mem_singleton] at h1
      simp [h1, hcy.1]

theorem eq_singleton_of_mem_iff {l : List String} {z : String} (hnd : l.Nodup)
    (h : ∀ x, x ∈ l ↔ x = z) : l = [z] := by
  cases l with
  | nil =>
      have := (h z).mpr rfl
      simp at this
  | cons a tl =>
      have ha : a = z := (h a).mp (by simp)
      subst ha
      cases tl with
      | nil => rfl
      | cons b tl2 =>
          have hb : b = a := (h b).mp (by simp)
          subst hb
          simp at hnd

theorem zip_first_mem_dropLast {l : List String} {p b : String}
    (h : (p, b) ∈ l.zip l.tail) : p ∈ l.dropLast := by
  induction l with
  | nil => simp at h
  | cons x tl ih =>
      cases tl with
      | nil => simp at h
      | cons y tl2 =>
          simp only [List.tail_cons, List.zip_cons_cons, List.mem_cons] at h
          rcases h with h | h
          · simp at h
            simp [List.dropLast_cons₂, h.1]
          · have := ih (by simpa using h)
            simp [List.dropLast_cons₂]
            right
            simpa using this

theorem zip_first_unique {l : List String} (hnd : l.Nodup) {a b c : String}
    (h1 : (a, b) ∈ l.zip l.tail) (h2 : (a, c) ∈ l.zip l.tail) : b = c := by
  induction l with
  | nil => simp at h1
  | cons x tl ih =>
      cases tl with
      | nil => simp at h1
      | cons y tl2 =>
          simp only [List.tail_cons, List.zip_cons_cons, List.mem_cons,
            Prod.mk.injEq] at h1 h2
          rcases List.nodup_cons.mp hnd with ⟨hx, hnd2⟩
          rcases h1 with h1 | h1
          · rcases h2 with h2 | h2
            · rw [h1.2, h2.2]
            · have hmem := (List.of_mem_zip h2).1
              rw [h1.1] at hmem
              exact absurd hmem hx
          · rcases h2 with h2 | h2
            · have hmem := (List.of_mem_zip h1).1
              rw [h2.1] at hmem
              exact absurd hmem hx
            · exact ih hnd2 (by simpa using h1) (by simpa using h2)

theorem mem_tail_imp_zip {l : List String} {t : String} (h : t ∈ l.tail) :
    ∃ p, (p, t) ∈ l.zip l.tail := by
  induction l with
  | nil => simp at h
  | cons x tl ih =>
      cases tl with
      | nil => simp at h
      | cons y tl2 =>
          simp only [List.tail_cons] at h
          rcases List.mem_cons.mp h with rfl | h
          · exact ⟨x, by simp⟩
          · rcases ih (by simpa using h) with ⟨p, hp⟩
            exact ⟨p, by simp; right; simpa using hp⟩

theorem chainShape_zip {m : List (String × Node)} :
    ∀ (prev : Option String) (rest : List String), ChainShape m prev rest →
      ∀ pa ∈ rest.zip rest.tail, parentsOf m pa.2 = [pa.1] := by
  intro prev rest
  induction rest generalizing prev with
  | nil => intro _ pa hpa; simp at hpa
  | cons y rest2 ih =>
      intro hch pa hpa
      rcases hch with ⟨-, hch2⟩
      cases rest2 with
      | nil => simp at hpa
      | cons z rest3 =>
          simp only [List.tail_cons, List.zip_cons_cons, List.mem_cons] at hpa
          rcases hpa with hpa | hpa
          · subst hpa
            exact hch2.1
          · exact ih (some y) hch2 pa (by simpa using hpa)

theorem chainShape_head {m : List (String × Node)} {x : String}
    {rest : List String} (h : ChainShape m none (x :: rest)) :
    parentsOf m x = [] := h.1

theorem chain_loop (m : List (String × Node)) (e : List (String × List String)) :
    ∀ (rest done : List String) (y : String) (st : SortSt) (fuel : Nat),
    st.result = done → st.avail = [y] →
    (y :: rest).Nodup →
    (∀ x ∈ y :: rest, x ∈ akeys m) →
    (∀ x ∈ rest, st.live x = 1) →
    (∀ pa ∈ (y :: rest).zip rest, ∀ x,
      childCount (akeys m) (childrenList e pa.1) x = if x = pa.2 then 1 else 0) →
    (∀ x, childCount (akeys m)
      (childrenList e ((y :: rest).getLast (by simp))) x = 0) →
    rest.length + 1 ≤ fuel →
    (sortLoop m e fuel st).result = done ++ y :: rest := by
  intro rest
  induction rest with
  | nil =>
      intro done y st fuel hres hav hnd hsub hlive hcc hlast hfuel
      cases fuel with
      | zero => omega
      | succ f =>
          rw [sortLoop, if_neg (by rw [hav]; simp), pickNext_singleton hav]
          have havail : (stepState m e st y).avail = [] := by
            rw [List.eq_nil_iff_forall_not_mem]
            intro x hx
            simp only [stepState] at hx
            rw [applyChildren_avail] at hx
            rcases hx with hx | ⟨-, h1, h2⟩
            · rw [hav] at hx
              simp [ssErase] at hx
            · have hl := hlast x
              simp only [List.getLast_singleton] at hl
              rw [hl] at h2
              simp at h2
              omega
          have hstep : (match some y with
              | none => st
              | some sel => sortLoop m e f (stepState m e st sel)) =
              sortLoop m e f (stepState m e st y) := rfl
          rw [hstep, sortLoop_avail_nil m e f _ havail]
          simp [stepState, hres]
  | cons z rest2 ih =>
      intro done y st fuel hres hav hnd hsub hlive hcc hlast hfuel
      cases fuel with
      | zero => simp at hfuel
      | succ f =>
          rw [sortLoop, if_neg (by rw [hav]; simp), pickNext_singleton hav]
          have hndz : (z :: rest2).Nodup := (List.nodup_cons.mp hnd).2
          have hzy : z ≠ y := by
            intro h
            exact (List.nodup_cons.mp hnd).1 (by rw [← h]; simp)
          have hccyz := hcc (y, z) (by rw [List.zip_cons_cons]; simp)
          have hav' : (stepState m e st y).avail = [z] := by
            refine eq_singleton_of_mem_iff ?_ ?_
            · exact pairwise_lt_nodup (applyChildren_pairwise _ _ _ _
                (pairwise_ssErase y st.avail (by rw [hav]; simp)))
            · intro x
              simp only [stepState]
              rw [applyChildren_avail]
              constructor
              · rintro (hx | ⟨-, h1, h2⟩)
                · rw [hav] at hx
                  simp [ssErase] at hx
                · rw [hccyz x] at h2
                  by_cases hxz : x = z
                  · exact hxz
                  · simp [hxz] at h2
                    omega
              · intro hx
                subst hx
                right
                refine ⟨hsub x (by simp), ?_, ?_⟩
                · rw [hlive x (by simp)]
                · rw [hccyz x, if_pos rfl, hlive x (by simp)]
                  simp
          have hlive' : ∀ x ∈ rest2, (stepState m e st y).live x = 1 := by
            intro x hx
            have hxz : x ≠ z := by
              intro h
              exact (List.nodup_cons.mp hndz).1 (h ▸ hx)
            simp only [stepState]
            rw [applyChildren_live, hccyz x, if_neg hxz, hlive x (by simp [hx])]
            simp
          have hres' : (stepState m e st y).result = done ++ [y] := by
            simp [stepState, hres]
          have hcc' : ∀ pa ∈ (z :: rest2).zip rest2, ∀ x,
              childCount (akeys m) (childrenList e pa.1) x =
                if x = pa.2 then 1 else 0 := by
            intro pa hpa x
            refine hcc pa ?_ x
            rw [List.zip_cons_cons]
            exact List.mem_cons_of_mem _ hpa
          have hlast' : ∀ x, childCount (akeys m)
              (childrenList e ((z :: rest2).getLast (by simp))) x = 0 := by
            intro x
            have hgl : (y :: z :: rest2).getLast (by simp) =
                (z :: rest2).getLast (by simp) := List.getLast_cons (by simp)
            rw [← hgl]
            exact hlast x
          have hrun := ih (done ++ [y]) z (stepState m e st y) f hres' hav' hndz
            (fun x hx => hsub x (List.mem_cons_of_mem _ hx)) hlive' hcc' hlast'
            (by simpa using Nat.succ_le_succ_iff.mp hfuel)
          have hstep : (match some y with
              | none => st
              | some sel => sortLoop m e f (stepState m e st sel)) =
              sortLoop m e f (stepState m e st y) := rfl
          rw [hstep, hrun]
          simp

/-- C5: for every SubDAG that is a single simple chain `n1 → n2 → … → nk`
(each node's stored parents are exactly its predecessor), with edges derived
by `build_dag_from_parents`, the sort returns exactly `[n1, …, nk]`. -/
theorem claim_C5 (ids : List String) (hne : ids ≠ []) (hnd : ids.Nodup)
    (m : List (String × Node)) (hkeys : akeys m = ids)
    (hch : ChainShape m none ids) :
    topological_sort_subdag m (edgesOf m) = ids := by
  cases ids with
  | nil => exact absurd rfl hne
  | cons h tl =>
      have hndk : (akeys m).Nodup := by rw [hkeys]; exact hnd
      have hm : m ≠ [] := by
        intro hm0
        rw [hm0] at hkeys
        simp [akeys] at hkeys
      have hparhead : parentsOf m h = [] := chainShape_head hch
      have hzip : ∀ pa ∈ (h :: tl).zip tl, parentsOf m pa.2 = [pa.1] := by
        intro pa hpa
        exact chainShape_zip none (h :: tl) hch pa (by simpa using hpa)
      have hdeg0 : inDeg m h = 0 := by
        unfold inDeg parentsIn
        rw [hparhead]
        simp
      have hdeg1 : ∀ t ∈ tl, inDeg m t = 1 := by
        intro t ht
        rcases mem_tail_imp_zip (l := h :: tl) (by simpa using ht) with ⟨p, hp⟩
        have hpo := hzip (p, t) hp
        have hpk : p ∈ akeys m := by
          rw [hkeys]
          exact (List.of_mem_zip hp).1
        unfold inDeg parentsIn
        rw [hpo]
        simp [hpk]
      have hinit : initAvail m = [h] := by
        unfold initAvail
        have hfil : (akeys m).filter (fun n => inDeg m n == 0) = [h] := by
          rw [hkeys]
          rw [List.filter_cons]
          simp only [hdeg0, beq_self_eq_true, if_true]
          have : tl.filter (fun n => inDeg m n == 0) = [] := by
            rw [List.filter_eq_nil_iff]
            intro t ht
            simp [hdeg1 t ht]
          rw [this]
        rw [hfil]
        simp [ssInsert]
      have hcore : ∀ a x, (parentsOf m x).count a =
          if (a, x) ∈ (h :: tl).zip tl then 1 else 0 := by
        intro a x
        by_cases hxk : x ∈ akeys m
        · rw [hkeys] at hxk
          rcases List.mem_cons.mp hxk with rfl | hxt
          · rw [hparhead]
            have : (a, x) ∉ (x :: tl).zip tl := by
              intro hmem
              have := (List.of_mem_zip hmem).2
              exact (List.nodup_cons.mp hnd).1 this
            simp [this]
          · rcases mem_tail_imp_zip (l := h :: tl) (by simpa using hxt)
              with ⟨p, hp⟩
            simp only [List.tail_cons] at hp
            rw [hzip (p, x) hp]
            by_cases hap : a = p
            · subst hap
              simp only [List.count_cons, List.count_nil]
              rw [if_pos hp]
              simp
            · have : (a, x) ∉ (h :: tl).zip tl := by
                intro hmem
                have := hzip (a, x) hmem
                rw [hzip (p, x) hp] at this
                simp at this
                exact hap this.symm
              rw [if_neg this]
              simp only [List.count_cons, List.count_nil]
              have : (p == a) = false := by
                simp
                exact fun hh => hap hh.symm
              simp [this]
        · have hpo : parentsOf m x = [] := by
            unfold parentsOf
            rw [alookup_eq_none m x hxk]
            rfl
          rw [hpo]
          have : (a, x) ∉ (h :: tl).zip tl := by
            intro hmem
            have := (List.of_mem_zip hmem).2
            exact hxk (by rw [hkeys]; exact List.mem_cons_of_mem _ this)
          simp [this]
      have hcc : ∀ pa ∈ (h :: tl).zip tl, ∀ x,
          childCount (akeys m) (childrenList (edgesOf m) pa.1) x =
            if x = pa.2 then 1 else 0 := by
        intro pa hpa x
        have hp1k : pa.1 ∈ akeys m := by
          rw [hkeys]
          exact (List.of_mem_zip (by simpa using hpa)).1
        by_cases hxk : x ∈ akeys m
        · rw [childCount_eq_count_of_mem _ _ _ hxk,
            count_childrenList_edgesOf m hndk, if_pos hp1k, hcore]
          by_cases hxp : x = pa.2
          · subst hxp
            rw [if_pos (by simpa using hpa), if_pos rfl]
          · rw [if_neg ?_, if_neg hxp]
            intro hmem
            exact hxp (zip_first_unique hnd hmem (by simpa using hpa))
        · rw [childCount_eq_zero_of_not_mem _ _ _ hxk, if_neg ?_]
          intro hxp
          subst hxp
          exact hxk (by
            rw [hkeys]
            exact List.mem_cons_of_mem _ (List.of_mem_zip (by simpa using hpa)).2)
      have hlast : ∀ x, childCount (akeys m)
          (childrenList (edgesOf m) ((h :: tl).getLast (by simp))) x = 0 := by
        intro x
        have hLk : (h :: tl).getLast (by simp) ∈ akeys m := by
          rw [hkeys]
          exact List.getLast_mem (by simp)
        by_cases hxk : x ∈ akeys m
        · rw [childCount_eq_count_of_mem _ _ _ hxk,
            count_childrenList_edgesOf m hndk, if_pos hLk, hcore, if_neg ?_]
          intro hmem
          have hdrop := zip_first_mem_dropLast hmem
          have hsplit := List.dropLast_append_getLast
            (l := h :: tl) (by simp)
          have hnd2 : ((h :: tl).dropLast ++ [(h :: tl).getLast (by simp)]).Nodup := by
            rw [hsplit]
            exact hnd
          rw [List.nodup_append] at hnd2
          exact hnd2.2.2 hdrop (by simp)
        · exact childCount_eq_zero_of_not_mem _ _ _ hxk
      have hfuel : tl.length + 1 ≤ m.length := by
        have : (akeys m).length = m.length := by simp [akeys]
        rw [hkeys] at this
        simp at this
        omega
      have hrun := chain_loop m (edgesOf m) tl [] h
        { result := [], avail := initAvail m, live := fun n => (inDeg m n : Int) }
        m.length rfl hinit hnd
        (fun x hx => by rw [hkeys]; exact hx)
        (fun x hx => by simp [hdeg1 x hx])
        hcc hlast hfuel
      unfold topological_sort_subdag
      rw [if_neg hm, hrun]
      simp

/-- C5 witness: the six-node linked list
`user_a → assistant_a → user_b → assistant_b → user_c → assistant_c`. -/
theorem claim_C5_witness :
    topological_sort_subdag
      [("user_a", ({} : Node)),
       ("assistant_a", { parent_ids := ["user_a"] }),
       ("user_b", { parent_ids := ["assistant_a"] }),
       ("assistant_b", { parent_ids := ["user_b"] }),
       ("user_c", { parent_ids := ["assistant_b"] }),
       ("assistant_c", { parent_ids := ["user_c"] })]
      (edgesOf
        [("user_a", ({} : Node)),
         ("assistant_a", { parent_ids := ["user_a"] }),
         ("user_b", { parent_ids := ["assistant_a"] }),
         ("assistant_b", { parent_ids := ["user_b"] }),
         ("user_c", { parent_ids := ["assistant_b"] }),
         ("assistant_c", { parent_ids := ["user_c"] })]) =
      ["user_a", "assistant_a", "user_b", "assistant_b", "user_c",
       "assistant_c"] := by
  exact claim_C5
    ["user_a", "assistant_a", "user_b", "assistant_b", "user_c", "assistant_c"]
    (by decide) (by decide) _ (by decide)
    ⟨by decide, by decide, by decide, by decide, by decide, by decide, trivial⟩

/-! ## Lemmas: the SubDAG builder BFS (claims C2 and C3) -/

theorem alookup_mem {β : Type} {m : List (String × β)} {k : String} {v : β}
    (h : alookup m k = some v) : (k, v) ∈ m := by
  induction m with
  | nil => simp [alookup] at h
  | cons kv rest ih =>
      cases kv with
      | mk k' v' =>
          by_cases hk : k' = k
          · subst hk
            simp only [alookup, eq_self_iff_true, if_true, Option.some.injEq] at h
            subst h
            simp
          · simp only [alookup, if_neg hk] at h
            exact List.mem_cons_of_mem _ (ih h)

theorem alookup_of_mem_nodup {β : Type} {m : List (String × β)}
    (hnd : (akeys m).Nodup) {k : String} {v : β} (h : (k, v) ∈ m) :
    alookup m k = some v := by
  induction m with
  | nil => simp at h
  | cons kv rest ih =>
      cases kv with
      | mk k' v' =>
          have hnd2 : (k' :: akeys rest).Nodup := hnd
          rcases List.mem_cons.mp h with h | h
          · simp only [Prod.mk.injEq] at h
            simp [alookup, h.1, h.2]
          · have hk : k' ≠ k := by
              intro hk
              subst hk
              exact (List.nodup_cons.mp hnd2).1
                (List.mem_map_of_mem Prod.fst h)

            simp only [alookup, if_neg hk]
            exact ih (List.nodup_cons.mp hnd2).2 h

theorem mem_akeys_iff {β : Type} {m : List (String × β)} {k : String} :
    k ∈ akeys m ↔ ∃ v, (k, v) ∈ m := by
  unfold akeys
  rw [List.mem_map]
  constructor
  · rintro ⟨⟨k', v⟩, hm, rfl⟩
    exact ⟨v, hm⟩
  · rintro ⟨v, hv⟩
    exact ⟨(k, v), hv, rfl⟩

theorem parseOid_ne_empty {p q : String} (h : parseOid p = some q) : p ≠ "" := by
  intro hp
  subst hp
  simp [parseOid, isValidOid] at h

theorem processNodes_visited (found : List (String × Node)) :
    ∀ visited nm acc x,
    x ∈ (processNodes found visited nm acc).1 ↔ x ∈ visited ∨ x ∈ akeys found := by
  induction found with
  | nil => intro visited nm acc x; simp [processNodes, akeys]
  | cons kv rest ih =>
      intro visited nm acc x
      cases kv with
      | mk nid node =>
          by_cases hv : nid ∈ visited
          · rw [processNodes, if_pos hv, ih]
            constructor
            · rintro (h | h)
              · exact Or.inl h
              · exact Or.inr (by simp [akeys]; right; simpa [akeys] using h)
            · rintro (h | h)
              · exact Or.inl h
              · simp [akeys] at h
                rcases h with h | h
                · subst h; exact Or.inl hv
                · exact Or.inr (by simpa [akeys] using h)
          · rw [processNodes, if_neg hv, ih]
            simp [akeys]
            tauto

theorem processNodes_visited_mono (found : List (String × Node)) :
    ∀ visited nm acc x, x ∈ visited → x ∈ (processNodes found visited nm acc).1 := by
  intro visited nm acc x hx
  rw [processNodes_visited]
  exact Or.inl hx

theorem processNodes_keys_sync (found : List (String × Node)) :
    ∀ visited nm acc, (∀ x, x ∈ visited ↔ x ∈ akeys nm) →
    ∀ x, x ∈ (processNodes found visited nm acc).1 ↔
      x ∈ akeys (processNodes found visited nm acc).2.1 := by
  induction found with
  | nil => intro visited nm acc h x; simpa [processNodes] using h x
  | cons kv rest ih =>
      intro visited nm acc h x
      cases kv with
      | mk nid node =>
          by_cases hv : nid ∈ visited
          · rw [processNodes, if_pos hv]
            exact ih visited nm acc h x
          · rw [processNodes, if_neg hv]
            refine ih _ _ _ ?_ x
            intro z
            rw [List.mem_cons, h z]
            simp [akeys]
            tauto

theorem processNodes_keys_nodup (found : List (String × Node)) :
    ∀ visited nm acc, (∀ x, x ∈ visited ↔ x ∈ akeys nm) →
    (akeys nm).Nodup → (akeys (processNodes found visited nm acc).2.1).Nodup := by
  induction found with
  | nil => intro visited nm acc h hnd; simpa [processNodes]
  | cons kv rest ih =>
      intro visited nm acc h hnd
      cases kv with
      | mk nid node =>
          by_cases hv : nid ∈ visited
          · rw [processNodes, if_pos hv]
            exact ih visited nm acc h hnd
          · rw [processNodes, if_neg hv]
            refine ih _ _ _ ?_ ?_
            · intro z
              rw [List.mem_cons, h z]
              simp [akeys]
              tauto
            · have : akeys (nm ++ [(nid, node)]) = akeys nm ++ [nid] := by
                simp [akeys]
              rw [this]
              rw [List.nodup_append]
              exact ⟨hnd, List.nodup_singleton _,
                by simp; intro hc; exact hv ((h nid).mpr hc)⟩

theorem processNodes_entries (found : List (String × Node)) :
    ∀ visited nm acc kv, kv ∈ (processNodes found visited nm acc).2.1 →
      kv ∈ nm ∨ kv ∈ found := by
  induction found with
  | nil => intro visited nm acc kv h; exact Or.inl (by simpa [processNodes] using h)
  | cons kv0 rest ih =>
      intro visited nm acc kv h
      cases kv0 with
      | mk nid node =>
          by_cases hv : nid ∈ visited
          · rw [processNodes, if_pos hv] at h
            rcases ih _ _ _ _ h with h | h
            · exact Or.inl h
            · exact Or.inr (List.mem_cons_of_mem _ h)
          · rw [processNodes, if_neg hv] at h
            rcases ih _ _ _ _ h with h | h
            · rcases List.mem_append.mp h with h | h
              · exact Or.inl h
              · simp at h
                exact Or.inr (by simp [h])
            · exact Or.inr (List.mem_cons_of_mem _ h)

theorem processNodes_acc_mono (found : List (String × Node)) :
    ∀ visited nm acc x, x ∈ acc → x ∈ (processNodes found visited nm acc).2.2 := by
  induction found with
  | nil => intro visited nm acc x hx; simpa [processNodes]
  | cons kv rest ih =>
      intro visited nm acc x hx
      cases kv with
      | mk nid node =>
          by_cases hv : nid ∈ visited
          · rw [processNodes, if_pos hv]
            exact ih _ _ _ _ hx
          · rw [processNodes, if_neg hv]
            exact ih _ _ _ _ (List.mem_append_left _ hx)

theorem processNodes_nm_mono (found : List (String × Node)) :
    ∀ visited nm acc kv, kv ∈ nm → kv ∈ (processNodes found visited nm acc).2.1 := by
  induction found with
  | nil => intro visited nm acc kv h; simpa [processNodes]
  | cons kv0 rest ih =>
      intro visited nm acc kv h
      cases kv0 with
      | mk nid node =>
          by_cases hv : nid ∈ visited
          · rw [processNodes, if_pos hv]
            exact ih _ _ _ _ h
          · rw [processNodes, if_neg hv]
            exact ih _ _ _ _ (List.mem_append_left _ h)

theorem processNodes_acc_src (found : List (String × Node)) :
    ∀ visited nm acc q, q ∈ (processNodes found visited nm acc).2.2 →
      q ∈ acc ∨ ∃ kv ∈ (processNodes found visited nm acc).2.1,
        ∃ p ∈ kv.2.parent_ids, p ≠ "" ∧ parseOid p = some q := by
  induction found with
  | nil => intro visited nm acc q h; exact Or.inl (by simpa [processNodes] using h)
  | cons kv0 rest ih =>
      intro visited nm acc q h
      cases kv0 with
      | mk nid node =>
          by_cases hv : nid ∈ visited
          · rw [processNodes, if_pos hv] at h ⊢
            exact ih _ _ _ _ h
          · rw [processNodes, if_neg hv] at h ⊢
            rcases ih _ _ _ _ h with h | h
            · rcases List.mem_append.mp h with h | h
              · exact Or.inl h
              · right
                unfold collectParents at h
                rcases List.mem_filterMap.mp h with ⟨p, hp, hpq⟩
                by_cases hpe : p = ""
                · rw [if_pos hpe] at hpq
                  simp at hpq
                · rw [if_neg hpe] at hpq
                  by_cases hpv : p ∈ nid :: visited
                  · rw [if_pos hpv] at hpq
                    simp at hpq
                  · rw [if_neg hpv] at hpq
                    exact ⟨(nid, node),
                      processNodes_nm_mono rest _ _ _ _ (by simp),
                      p, hp, hpe, hpq⟩
            · exact Or.inr h

theorem processNodes_parents (found : List (String × Node)) :
    ∀ visited nm acc,
    ∀ kv ∈ (processNodes found visited nm acc).2.1, kv ∈ nm ∨
      (∀ p ∈ kv.2.parent_ids, p ≠ "" → ∀ q, parseOid p = some q →
        p ∈ (processNodes found visited nm acc).1 ∨
        q ∈ (processNodes found visited nm acc).2.2) := by
  induction found with
  | nil =>
      intro visited nm acc kv h
      exact Or.inl (by simpa [processNodes] using h)
  | cons kv0 rest ih =>
      intro visited nm acc kv h
      cases kv0 with
      | mk nid node =>
          by_cases hv : nid ∈ visited
          · rw [processNodes, if_pos hv] at h ⊢
            exact ih _ _ _ kv h
          · rw [processNodes, if_neg hv] at h ⊢
            rcases ih _ _ _ kv h with h1 | h1
            · rcases List.mem_append.mp h1 with h1 | h1
              · exact Or.inl h1
              · simp only [List.mem_singleton] at h1
                subst h1
                right
                intro p hp hpe q hq
                by_cases hpv : p ∈ nid :: visited
                · exact Or.inl (processNodes_visited_mono rest _ _ _ p hpv)
                · right
                  refine processNodes_acc_mono rest _ _ _ q
                    (List.mem_append_right _ ?_)
                  unfold collectParents
                  refine List.mem_filterMap.mpr ⟨p, hp, ?_⟩
                  rw [if_neg hpe, if_neg hpv]
                  exact hq
            · exact Or.inr h1

theorem bfsLoop_master (store : List (String × Node)) (starts : List String)
    (hwf : WFStore store) :
    ∀ (fuel : Nat) (queue visited : List String) (nm : List (String × Node)),
    BInv store starts queue visited nm →
    BInv store starts (bfsLoop store fuel queue visited nm).2.2
      (bfsLoop store fuel queue visited nm).2.1
      (bfsLoop store fuel queue visited nm).1 ∧
    (∀ x ∈ visited, x ∈ (bfsLoop store fuel queue visited nm).2.1) ∧
    ((bfsLoop store fuel queue visited nm).2.2 = [] →
      ∀ q ∈ queue, q ∈ akeys store → q ∈ (bfsLoop store fuel queue visited nm).2.1) := by
  intro fuel
  induction fuel with
  | zero =>
      intro queue visited nm hB
      rw [bfsLoop]
      refine ⟨hB, fun x hx => hx, fun hq q hqq _ => ?_⟩
      have hq0 : queue = [] := hq
      rw [hq0] at hqq
      simp at hqq
  | succ fuel ih =>
      intro queue visited nm hB
      obtain ⟨hB1, hB2, hB3, hB4, hB5, hB6⟩ := hB
      by_cases hq : queue = []
      · rw [bfsLoop, if_pos hq]
        refine ⟨⟨hB1, hB2, hB3, hB4, by simp, ?_⟩, fun x hx => hx, ?_⟩
        · intro kv hkv p hp hpe q hpq hqs
          rcases hB6 kv hkv p hp hpe q hpq hqs with h | h
          · exact Or.inl h
          · rw [hq] at h
            simp at h
        · intro hdummy q hqq hqs
          rw [hq] at hqq
          simp at hqq
      · set batch := queue.take 100 with hbatch
        set rest := queue.drop 100 with hrest
        set found := store.filter (fun kv => decide (kv.1 ∈ batch)) with hfound
        set s := processNodes found visited nm [] with hs
        have heq : bfsLoop store (fuel + 1) queue visited nm =
            bfsLoop store fuel (rest ++ s.2.2) s.1 s.2.1 := by
          rw [bfsLoop, if_neg hq]
        have hfound_sub : ∀ kv ∈ found, kv ∈ store :=
          fun kv hkv => (List.mem_filter.mp hkv).1
        have hfound_batch : ∀ kv ∈ found, kv.1 ∈ batch := by
          intro kv hkv
          have := (List.mem_filter.mp hkv).2
          simpa using this
        have hbatch_found : ∀ q2 ∈ batch, q2 ∈ akeys store → q2 ∈ akeys found := by
          intro q2 hqb hqs
          rcases mem_akeys_iff.mp hqs with ⟨v, hv⟩
          have hmem : (q2, v) ∈ found := List.mem_filter.mpr ⟨hv, by simpa using hqb⟩
          exact mem_akeys_iff.mpr ⟨v, hmem⟩
        have hqsplit : queue = batch ++ rest := (List.take_append_drop 100 queue).symm
        have hnB1 : ∀ x, x ∈ s.1 ↔ x ∈ akeys s.2.1 :=
          processNodes_keys_sync found visited nm [] hB1
        have hnB2 : (akeys s.2.1).Nodup :=
          processNodes_keys_nodup found visited nm [] hB1 hB2
        have hnB3 : ∀ kv ∈ s.2.1, kv ∈ store := by
          intro kv hkv
          rcases processNodes_entries found visited nm [] kv hkv with h | h
          · exact hB3 kv h
          · exact hfound_sub kv h
        have hnB4 : ∀ x ∈ s.1, InClosure store starts x := by
          intro x hx
          rcases (processNodes_visited found visited nm [] x).mp hx with h | h
          · exact hB4 x h
          · rcases mem_akeys_iff.mp h with ⟨v, hv⟩
            have hxq : x ∈ queue := by
              rw [hqsplit]
              exact List.mem_append_left _ (hfound_batch (x, v) hv)
            have hxs : x ∈ akeys store := mem_akeys_iff.mpr ⟨v, hfound_sub (x, v) hv⟩
            exact hB5 x hxq hxs
        have hnB5 : ∀ q2 ∈ rest ++ s.2.2, q2 ∈ akeys store →
            InClosure store starts q2 := by
          intro q2 hq2 hq2s
          rcases List.mem_append.mp hq2 with h | h
          · exact hB5 q2 (by rw [hqsplit]; exact List.mem_append_right _ h) hq2s
          · rcases processNodes_acc_src found visited nm [] q2 h with
              h | ⟨⟨k1, v1⟩, hkv, p, hp, hpe, hpq⟩
            · simp at h
            · have hkvc : InClosure store starts k1 := by
                apply hnB4
                rw [hnB1]
                exact mem_akeys_iff.mpr ⟨v1, hkv⟩
              exact InClosure.up k1 v1 p q2 hkvc
                (alookup_of_mem_nodup hwf.1 (hnB3 (k1, v1) hkv)) hp hpe hpq hq2s
        have hnB6 : ∀ kv ∈ s.2.1, ∀ p ∈ kv.2.parent_ids, p ≠ "" →
            ∀ q2, parseOid p = some q2 → q2 ∈ akeys store →
              q2 ∈ s.1 ∨ q2 ∈ rest ++ s.2.2 := by
          intro kv hkv p hp hpe q2 hpq hq2s
          rcases processNodes_parents found visited nm [] kv hkv with hold | hfresh
          · rcases hB6 kv hold p hp hpe q2 hpq hq2s with h | h
            · exact Or.inl (processNodes_visited_mono found visited nm [] q2 h)
            · rw [hqsplit] at h
              rcases List.mem_append.mp h with h | h
              · exact Or.inl ((processNodes_visited found visited nm [] q2).mpr
                  (Or.inr (hbatch_found q2 h hq2s)))
              · exact Or.inr (List.mem_append_left _ h)
          · have hval : isValidOid p = true := by
              by_contra hc
              simp [parseOid, hc] at hpq
            have hnorm : lowerStr p = p := hwf.2.2 kv (hnB3 kv hkv) p hp hval
            have hqp : q2 = p := by
              simp only [parseOid, if_pos hval, Option.some.injEq] at hpq
              rw [← hpq, hnorm]
            rcases hfresh p hp hpe q2 hpq with h | h
            · exact Or.inl (hqp ▸ h)
            · exact Or.inr (List.mem_append_right _ h)
        have hIH := ih (rest ++ s.2.2) s.1 s.2.1 ⟨hnB1, hnB2, hnB3, hnB4, hnB5, hnB6⟩
        rw [heq]
        refine ⟨hIH.1, ?_, ?_⟩
        · intro x hx
          exact hIH.2.1 x (processNodes_visited_mono found visited nm [] x hx)
        · intro hfin q2 hq2 hq2s
          rw [hqsplit] at hq2
          rcases List.mem_append.mp hq2 with h | h
          · exact hIH.2.1 q2 ((processNodes_visited found visited nm [] q2).mpr
              (Or.inr (hbatch_found q2 h hq2s)))
          · exact hIH.2.2 hfin q2 (List.mem_append_left _ h) hq2s

theorem BInv_init (store : List (String × Node)) (starts : List String) :
    BInv store starts starts [] [] := by
  refine ⟨by simp [akeys], by simp [akeys], by simp, by simp, ?_, by simp⟩
  intro q hq hqs
  exact InClosure.start q hq hqs

theorem bfs_sound (store : List (String × Node)) (starts : List String)
    (hwf : WFStore store) :
    ∀ x ∈ akeys (bfsLoop store max_depth starts [] []).1,
      InClosure store starts x := by
  intro x hx
  have hM := bfsLoop_master store starts hwf max_depth starts [] []
    (BInv_init store starts)
  exact hM.1.2.2.2.1 x ((hM.1.1 x).mpr hx)

theorem bfs_complete (store : List (String × Node)) (starts : List String)
    (hwf : WFStore store)
    (hfin : (bfsLoop store max_depth starts [] []).2.2 = []) :
    ∀ x, InClosure store starts x →
      x ∈ akeys (bfsLoop store max_depth starts [] []).1 := by
  have hM := bfsLoop_master store starts hwf max_depth starts [] []
    (BInv_init store starts)
  intro x hx
  induction hx with
  | start s hs hsk => exact (hM.1.1 s).mp (hM.2.2 hfin s hs hsk)
  | up c node p q hc hlook hp hpe hpq hqk ih =>
      rcases mem_akeys_iff.mp ih with ⟨v, hv⟩
      have hvs : (c, v) ∈ store := hM.1.2.2.1 (c, v) hv
      have hveq : v = node := by
        have h1 := alookup_of_mem_nodup hwf.1 hvs
        rw [hlook] at h1
        exact (Option.some.injEq _ _ ▸ h1).symm
      subst hveq
      rcases hM.1.2.2.2.2.2 (c, v) hv p hp hpe q hpq hqk with h | h
      · exact (hM.1.1 q).mp h
      · rw [hfin] at h
        simp at h

theorem bfs_entries (store : List (String × Node)) (starts : List String)
    (hwf : WFStore store) :
    ∀ kv ∈ (bfsLoop store max_depth starts [] []).1, kv ∈ store := by
  have hM := bfsLoop_master store starts hwf max_depth starts [] []
    (BInv_init store starts)
  exact hM.1.2.2.1

theorem bfs_nodup (store : List (String × Node)) (starts : List String)
    (hwf : WFStore store) :
    (akeys (bfsLoop store max_depth starts [] []).1).Nodup :=
  (bfsLoop_master store starts hwf max_depth starts [] []
    (BInv_init store starts)).1.2.1

theorem mapM_parseOid_id (pids : List String)
    (h : ∀ p ∈ pids, parseOid p = some p) : pids.mapM parseOid = some pids := by
  induction pids with
  | nil => rfl
  | cons p rest ih =>
      rw [List.mapM_cons, h p (by simp), ih (fun q hq => h q (by simp [hq]))]
      rfl

theorem parseStartIds_id (pids : List String)
    (h : ∀ p ∈ pids, parseOid p = some p) : parseStartIds pids = some pids := by
  unfold parseStartIds
  have hfil : pids.filter (· ≠ "") = pids := by
    rw [List.filter_eq_self]
    intro p hp
    simpa using parseOid_ne_empty (h p hp)
  rw [hfil]
  exact mapM_parseOid_id pids h

theorem build_core_eq (store : List (String × Node)) (pids : List String)
    (hne : pids ≠ []) (hp : ∀ p ∈ pids, parseOid p = some p) :
    build_dag_core store pids =
      ((bfsLoop store max_depth pids [] []).1,
        edgesOf (bfsLoop store max_depth pids [] []).1,
        (bfsLoop store max_depth pids [] []).2.2) := by
  unfold build_dag_core
  rw [if_neg hne, parseStartIds_id pids hp]

/-- C2: for well-formed start ids referencing existing nodes in a
well-formed store, when the BFS drains its queue within the `max_depth`
bound, `build_dag_from_parents` returns exactly the ancestor closure of the
start ids (with the stored documents), and the edge map records, for each
node of the SubDAG, exactly its children inside the SubDAG. -/
theorem claim_C2 (store : List (String × Node)) (hwf : WFStore store)
    (parent_ids : List String) (hne : parent_ids ≠ [])
    (hpids : ∀ p ∈ parent_ids, parseOid p = some p ∧ p ∈ akeys store)
    (hbound : (build_dag_core store parent_ids).2.2 = []) :
    (∀ x, x ∈ akeys (build_dag_from_parents store parent_ids).1 ↔
      InClosure store parent_ids x) ∧
    (∀ x v, alookup (build_dag_from_parents store parent_ids).1 x = some v →
      alookup store x = some v) ∧
    (∀ p c, c ∈ childrenList (build_dag_from_parents store parent_ids).2 p ↔
      (p ∈ akeys (build_dag_from_parents store parent_ids).1 ∧
        ∃ node, alookup (build_dag_from_parents store parent_ids).1 c = some node ∧
          p ∈ node.parent_ids)) := by
  have hparse : ∀ p ∈ parent_ids, parseOid p = some p := fun p hp => (hpids p hp).1
  have hcore := build_core_eq store parent_ids hne hparse
  have hbuild : build_dag_from_parents store parent_ids =
      ((bfsLoop store max_depth parent_ids [] []).1,
        edgesOf (bfsLoop store max_depth parent_ids [] []).1) := by
    unfold build_dag_from_parents
    rw [hcore]
  have hfin : (bfsLoop store max_depth parent_ids [] []).2.2 = [] := by
    rw [hcore] at hbound
    exact hbound
  rw [hbuild]
  have hnd := bfs_nodup store parent_ids hwf
  refine ⟨?_, ?_, ?_⟩
  · intro x
    exact ⟨fun hx => bfs_sound store parent_ids hwf x hx,
      fun hx => bfs_complete store parent_ids hwf hfin x hx⟩
  · intro x v hv
    exact alookup_of_mem_nodup hwf.1
      (bfs_entries store parent_ids hwf (x, v) (alookup_mem hv))
  · intro p c
    rw [mem_childrenList_edgesOf _ hnd]
    constructor
    · rintro ⟨hpk, hck, hpp⟩
      rcases alookup_isSome_of_key _ c hck with ⟨node, hnode⟩
      refine ⟨hpk, node, hnode, ?_⟩
      rwa [parentsOf_eq_of_lookup _ c node hnode] at hpp
    · rintro ⟨hpk, node, hnode, hpp⟩
      refine ⟨hpk, ?_, ?_⟩
      · exact mem_akeys_iff.mpr ⟨node, alookup_mem hnode⟩
      · rwa [parentsOf_eq_of_lookup _ c node hnode]

/-- C2 witness: a two-node store queried from the child id. -/
theorem claim_C2_witness :
    InClosure
      [("aaaaaaaaaaaaaaaaaaaaaaaa", ({} : Node)),
       ("bbbbbbbbbbbbbbbbbbbbbbbb",
          { parent_ids := ["aaaaaaaaaaaaaaaaaaaaaaaa"] })]
      ["bbbbbbbbbbbbbbbbbbbbbbbb"] "aaaaaaaaaaaaaaaaaaaaaaaa" ∧
    "bbbbbbbbbbbbbbbbbbbbbbbb" ∈ childrenList
      (build_dag_from_parents
        [("aaaaaaaaaaaaaaaaaaaaaaaa", ({} : Node)),
         ("bbbbbbbbbbbbbbbbbbbbbbbb",
            { parent_ids := ["aaaaaaaaaaaaaaaaaaaaaaaa"] })]
        ["bbbbbbbbbbbbbbbbbbbbbbbb"]).2 "aaaaaaaaaaaaaaaaaaaaaaaa" := by
  have h := claim_C2
    [("aaaaaaaaaaaaaaaaaaaaaaaa", ({} : Node)),
     ("bbbbbbbbbbbbbbbbbbbbbbbb",
        { parent_ids := ["aaaaaaaaaaaaaaaaaaaaaaaa"] })]
    ⟨by decide, by decide, by decide⟩
    ["bbbbbbbbbbbbbbbbbbbbbbbb"] (by decide) (by decide) (by decide)
  refine ⟨(h.1 "aaaaaaaaaaaaaaaaaaaaaaaa").mp (by decide), ?_⟩
  exact (h.2.2 "aaaaaaaaaaaaaaaaaaaaaaaa" "bbbbbbbbbbbbbbbbbbbbbbbb").mpr
    ⟨by decide, { parent_ids := ["aaaaaaaaaaaaaaaaaaaaaaaa"] }, by decide, by decide⟩

theorem mapM_parseOid_none (pids : List String) (p : String) (hp : p ∈ pids)
    (hbad : parseOid p = none) : pids.mapM parseOid = none := by
  induction pids with
  | nil => simp at hp
  | cons q rest ih =>
      rw [List.mapM_cons]
      rcases List.mem_cons.mp hp with rfl | hp2
      · rw [hbad]
        rfl
      · cases hq : parseOid q with
        | none => rfl
        | some v =>
            rw [ih hp2]
            rfl

/-- C3, counterexample: mixing one malformed id with a well-formed id of an
existing node yields the empty SubDAG, not the closure of the well-formed
subset (which is nonempty, as the second conjunct shows). -/
theorem claim_C3_counterexample :
    (build_dag_from_parents [("aaaaaaaaaaaaaaaaaaaaaaaa", ({} : Node))]
      ["aaaaaaaaaaaaaaaaaaaaaaaa", "zz"]).1 = [] ∧
    akeys (build_dag_from_parents [("aaaaaaaaaaaaaaaaaaaaaaaa", ({} : Node))]
      ["aaaaaaaaaaaaaaaaaaaaaaaa"]).1 = ["aaaaaaaaaaaaaaaaaaaaaaaa"] := by
  decide

/-- C3 (amended): `build_dag_from_parents` does not skip malformed ids
individually.  Any malformed non-empty id string makes the whole call return
the empty SubDAG `(\x7b\x7d, \x7b\x7d)`; only falsy (empty-string) ids are
skipped individually, leaving the result unchanged. -/
theorem claim_C3 (store : List (String × Node)) (parent_ids : List String) :
    ((∃ p ∈ parent_ids, p ≠ "" ∧ parseOid p = none) →
      build_dag_from_parents store parent_ids = ([], [])) ∧
    (parent_ids.filter (· ≠ "") ≠ [] →
      build_dag_from_parents store parent_ids =
        build_dag_from_parents store (parent_ids.filter (· ≠ ""))) := by
  constructor
  · rintro ⟨p, hp, hpe, hbad⟩
    have hne : parent_ids ≠ [] := fun h => by simp [h] at hp
    have hparse : parseStartIds parent_ids = none := by
      unfold parseStartIds
      exact mapM_parseOid_none _ p (List.mem_filter.mpr ⟨hp, by simpa using hpe⟩)
        hbad
    unfold build_dag_from_parents build_dag_core
    rw [if_neg hne, hparse]
  · intro hne2
    have hne : parent_ids ≠ [] := by
      intro h
      rw [h] at hne2
      simp at hne2
    have hparse : parseStartIds parent_ids =
        parseStartIds (parent_ids.filter (· ≠ "")) := by
      unfold parseStartIds
      have : (parent_ids.filter (· ≠ "")).filter (· ≠ "") =
          parent_ids.filter (· ≠ "") := by
        rw [List.filter_eq_self]
        intro a ha
        exact List.of_mem_filter (p := fun x => decide (x ≠ "")) ha
      rw [this]
    unfold build_dag_from_parents build_dag_core
    rw [if_neg hne, if_neg hne2, hparse]

/-- C3 witness: a single malformed id aborts; empty-string ids are inert. -/
theorem claim_C3_witness :
    build_dag_from_parents [] ["zz"] = ([], []) ∧
    build_dag_from_parents [] ["", "zz"] =
      build_dag_from_parents [] (["", "zz"].filter (· ≠ "")) := by
  refine ⟨(claim_C3 [] ["zz"]).1 ⟨"zz", by decide, by decide, by decide⟩, ?_⟩
  exact (claim_C3 [] ["", "zz"]).2 (by decide)

/-! ## Lemmas: the model-set update rule (claim C7) -/

theorem mk_data (s : String) : String.mk s.data = s := by
  cases s
  rfl

theorem splitCommaChars_ne_nil (l : List Char) : splitCommaChars l ≠ [] := by
  cases l with
  | nil => simp [splitCommaChars]
  | cons c rest =>
      by_cases hc : c = ','
      · simp [splitCommaChars, hc]
      · simp only [splitCommaChars, if_neg hc]
        rcases h : splitCommaChars rest with - | ⟨p, ps⟩ <;> simp

theorem splitCommaChars_no_comma (l : List Char) :
    ∀ t ∈ splitCommaChars l, ',' ∉ t := by
  induction l with
  | nil =>
      intro t ht
      simp [splitCommaChars] at ht
      simp [ht]
  | cons c rest ih =>
      intro t ht
      by_cases hc : c = ','
      · rw [splitCommaChars, if_pos hc] at ht
        rcases List.mem_cons.mp ht with rfl | ht
        · simp
        · exact ih t ht
      · rw [splitCommaChars, if_neg hc] at ht
        rcases hsp : splitCommaChars rest with - | ⟨p, ps⟩
        · exact absurd hsp (splitCommaChars_ne_nil rest)
        · rw [hsp] at ht
          rcases List.mem_cons.mp ht with rfl | ht
          · intro hmem
            rcases List.mem_cons.mp hmem with h | h
            · exact hc h.symm
            · exact ih p (by rw [hsp]; simp) h
          · exact ih t (by rw [hsp]; simp [ht])

theorem splitCommaChars_of_no_comma (t : List Char) (h : ',' ∉ t) :
    splitCommaChars t = [t] := by
  induction t with
  | nil => rfl
  | cons c rest ih =>
      have hc : c ≠ ',' := fun hh => h (by simp [hh])
      rw [splitCommaChars, if_neg hc, ih (fun hh => h (by simp [hh]))]

theorem splitCommaChars_append (t r : List Char) (h : ',' ∉ t) :
    splitCommaChars (t ++ ',' :: r) = t :: splitCommaChars r := by
  induction t with
  | nil => simp [splitCommaChars]
  | cons c rest ih =>
      have hc : c ≠ ',' := fun hh => h (by simp [hh])
      rw [List.cons_append, splitCommaChars, if_neg hc,
        ih (fun hh => h (by simp [hh]))]

theorem splitCommaChars_join (ts : List (List Char)) (hne : ts ≠ [])
    (h : ∀ t ∈ ts, ',' ∉ t) :
    splitCommaChars (joinCommaChars ts) = ts := by
  induction ts with
  | nil => exact absurd rfl hne
  | cons t rest ih =>
      cases rest with
      | nil =>
          rw [joinCommaChars]
          exact splitCommaChars_of_no_comma t (h t (by simp))
      | cons t2 rest2 =>
          rw [joinCommaChars, splitCommaChars_append t _ (h t (by simp)),
            ih (by simp) (fun u hu => h u (by simp [hu]))]
          simp

theorem dropWhile_idem (p : Char → Bool) (l : List Char) :
    (l.dropWhile p).dropWhile p = l.dropWhile p := by
  induction l with
  | nil => rfl
  | cons c rest ih =>
      by_cases hc : p c
      · rw [List.dropWhile_cons_of_pos hc]
        exact ih
      · rw [List.dropWhile_cons_of_neg hc, List.dropWhile_cons_of_neg hc]

theorem trimRightChars_cons (c : Char) (rest : List Char) :
    trimRightChars (c :: rest) =
      if trimRightChars rest = [] then (if isPySpace c then [] else [c])
      else c :: trimRightChars rest := by
  unfold trimRightChars
  rw [List.reverse_cons, List.dropWhile_append]
  by_cases h : (rest.reverse.dropWhile isPySpace).isEmpty
  · rw [if_pos h]
    have h2 : rest.reverse.dropWhile isPySpace = [] := by
      rwa [List.isEmpty_iff] at h
    rw [h2]
    simp only [List.reverse_nil, if_pos rfl]
    by_cases hc : isPySpace c
    · simp [List.dropWhile, hc]
    · simp [List.dropWhile, hc]
  · rw [if_neg h]
    have h2 : ¬ rest.reverse.dropWhile isPySpace = [] := by
      rwa [List.isEmpty_iff] at h
    rw [if_neg (by simpa using h2)]
    simp

theorem trimLeft_trimRight_no_lead (l : List Char)
    (h : ∀ c, l.head? = some c → ¬ isPySpace c) :
    trimLeftChars (trimRightChars l) = trimRightChars l := by
  cases l with
  | nil => rfl
  | cons c rest =>
      have hc : ¬ isPySpace c := h c rfl
      rw [trimRightChars_cons]
      by_cases hr : trimRightChars rest = []
      · rw [if_pos hr, if_neg hc]
        unfold trimLeftChars
        simp [List.dropWhile, hc]
      · rw [if_neg hr]
        unfold trimLeftChars
        simp [List.dropWhile, hc]

theorem trimLeftChars_head (l : List Char) :
    ∀ c, (trimLeftChars l).head? = some c → ¬ isPySpace c := by
  induction l with
  | nil => intro c hc; simp [trimLeftChars] at hc
  | cons a rest ih =>
      intro c hc
      by_cases ha : isPySpace a
      · rw [trimLeftChars, List.dropWhile_cons_of_pos ha] at hc
        exact ih c hc
      · rw [trimLeftChars, List.dropWhile_cons_of_neg ha] at hc
        simp at hc
        rw [← hc]
        exact ha

theorem stripChars_idem (l : List Char) :
    trimRightChars (trimLeftChars (trimRightChars (trimLeftChars l))) =
      trimRightChars (trimLeftChars l) := by
  have h1 : trimLeftChars (trimRightChars (trimLeftChars l)) =
      trimRightChars (trimLeftChars l) :=
    trimLeft_trimRight_no_lead _ ?_
  · rw [h1]
    unfold trimRightChars
    rw [List.reverse_reverse, dropWhile_idem]
  · exact trimLeftChars_head l

theorem pyStrip_idem (s : String) : pyStrip (pyStrip s) = pyStrip s := by
  unfold pyStrip
  simp only []
  rw [congrArg (fun l => String.mk l) (stripChars_idem s.data)]

theorem mem_trimLeftChars {l : List Char} {x : Char} (h : x ∈ trimLeftChars l) :
    x ∈ l :=
  (List.dropWhile_sublist _).mem h

theorem mem_trimRightChars {l : List Char} {x : Char} (h : x ∈ trimRightChars l) :
    x ∈ l := by
  unfold trimRightChars at h
  rw [List.mem_reverse] at h
  have := (List.dropWhile_sublist (l := l.reverse) isPySpace).mem h
  rwa [List.mem_reverse] at this

theorem pyStrip_no_comma {s : String} (h : ',' ∉ s.data) :
    ',' ∉ (pyStrip s).data := by
  unfold pyStrip
  intro hc
  exact h (mem_trimLeftChars (mem_trimRightChars hc))

theorem joinCommaChars_ne_nil (t : List Char) (ts : List (List Char))
    (ht : t ≠ []) : joinCommaChars (t :: ts) ≠ [] := by
  cases ts with
  | nil => simpa [joinCommaChars]
  | cons t2 rest =>
      rw [joinCommaChars]
      · simp [ht]
      · simp

theorem data_ne_nil {s : String} (h : s ≠ "") : s.data ≠ [] := by
  intro hd
  apply h
  rw [← mk_data s, hd]

theorem pySplitComma_join (ts : List String) (hne : ts ≠ [])
    (h : ∀ t ∈ ts, ',' ∉ t.data) :
    pySplitComma (pyJoinComma ts) = ts := by
  unfold pySplitComma pyJoinComma
  have hd : (String.mk (joinCommaChars (ts.map String.data))).data
      = joinCommaChars (ts.map String.data) := rfl
  rw [hd]
  have hsp : splitCommaChars (joinCommaChars (ts.map String.data))
      = ts.map String.data :=
    splitCommaChars_join _ (by simpa using hne) (by
      intro t ht
      obtain ⟨u, hu, rfl⟩ := List.mem_map.mp ht
      exact h u hu)
  rw [hsp, List.map_map]
  conv_rhs => rw [← List.map_id ts]
  exact List.map_congr_left (fun a _ => mk_data a)

theorem mem_models_props {current t : String}
    (ht : t ∈ ((pySplitComma current).map pyStrip).filter (fun x => x ≠ "")) :
    t ≠ "" ∧ ',' ∉ t.data ∧ pyStrip t = t := by
  obtain ⟨hmem, hne⟩ := List.mem_filter.mp ht
  obtain ⟨u, hu, rfl⟩ := List.mem_map.mp hmem
  obtain ⟨cs, hcs, rfl⟩ := List.mem_map.mp hu
  refine ⟨by simpa using hne, ?_, pyStrip_idem _⟩
  exact pyStrip_no_comma (splitCommaChars_no_comma _ _ hcs)

theorem update_join_fixed (ts : List String) (new_model : String)
    (hne : ts ≠ [])
    (hprops : ∀ t ∈ ts, t ≠ "" ∧ ',' ∉ t.data ∧ pyStrip t = t)
    (hmem : new_model ∈ ts) :
    update_model_field (pyJoinComma ts) new_model = pyJoinComma ts := by
  have hrne : pyJoinComma ts ≠ "" := by
    cases ts with
    | nil => exact absurd rfl hne
    | cons t rest =>
        intro h0
        have hd : (pyJoinComma (t :: rest)).data
            = joinCommaChars ((t :: rest).map String.data) := rfl
        rw [h0] at hd
        have hjn : joinCommaChars ((t :: rest).map String.data) ≠ [] := by
          rw [List.map_cons]
          exact joinCommaChars_ne_nil _ _ (data_ne_nil (hprops t (by simp)).1)
        apply hjn
        rw [← hd]
  have hsplit : pySplitComma (pyJoinComma ts) = ts :=
    pySplitComma_join ts hne (fun t ht => (hprops t ht).2.1)
  have hmap : ts.map pyStrip = ts := by
    conv_rhs => rw [← List.map_id ts]
    exact List.map_congr_left (fun a ha => (hprops a ha).2.2)
  have hfilt : ts.filter (fun x => x ≠ "") = ts :=
    List.filter_eq_self.mpr (fun a ha => by simpa using (hprops a ha).1)
  simp only [update_model_field, if_neg hrne, hsplit, hmap, hfilt, if_pos hmem]

theorem update_model_field_eq_spec (current new_model : String) :
    update_model_field current new_model
      = update_model_field_spec current new_model := by
  by_cases hc : current = ""
  · subst hc
    simp only [update_model_field, update_model_field_spec, if_pos rfl]
    have h1 : pySplitComma "" = [""] := by decide
    have h2 : (([""].map pyStrip).filter (fun x => x ≠ "")) = [] := by decide
    rw [h1, h2]
    simp only [List.not_mem_nil, if_neg (by simp : ¬ new_model ∈ ([] : List String)),
      List.nil_append]
    simp [pyJoinComma, joinCommaChars, mk_data]
  · simp only [update_model_field, update_model_field_spec, if_neg hc]

theorem update_model_field_idem (current new_model : String)
    (hne : new_model ≠ "") (hstrip : pyStrip new_model = new_model)
    (hcomma : ',' ∉ new_model.data) :
    update_model_field (update_model_field current new_model) new_model
      = update_model_field current new_model := by
  by_cases hc : current = ""
  · subst hc
    have h0 : update_model_field "" new_model = new_model := by
      simp [update_model_field]
    rw [h0]
    have hj : pyJoinComma [new_model] = new_model := by
      simp [pyJoinComma, joinCommaChars, mk_data]
    calc update_model_field new_model new_model
        = update_model_field (pyJoinComma [new_model]) new_model := by rw [hj]
      _ = pyJoinComma [new_model] :=
          update_join_fixed [new_model] new_model (by simp)
            (by intro t ht
                simp at ht
                subst ht
                exact ⟨hne, hcomma, hstrip⟩)
            (by simp)
      _ = new_model := hj
  · -- general case: the first application produces a join of good tokens
    -- that contains new_model, which the second application leaves fixed
    have hfirst : update_model_field current new_model
        = pyJoinComma
            (if new_model ∈ ((pySplitComma current).map pyStrip).filter
                (fun x => x ≠ "")
             then ((pySplitComma current).map pyStrip).filter (fun x => x ≠ "")
             else ((pySplitComma current).map pyStrip).filter (fun x => x ≠ "")
                ++ [new_model]) := by
      simp only [update_model_field, if_neg hc]
    set models := ((pySplitComma current).map pyStrip).filter (fun x => x ≠ "")
      with hmodels
    by_cases hm : new_model ∈ models
    · rw [hfirst, if_pos hm]
      exact update_join_fixed models new_model
        (by intro h0; rw [h0] at hm; simp at hm)
        (fun t ht => mem_models_props (hmodels ▸ ht)) hm
    · rw [hfirst, if_neg hm]
      refine update_join_fixed (models ++ [new_model]) new_model (by simp) ?_
        (by simp)
      intro t ht
      rcases List.mem_append.mp ht with h1 | h1
      · exact mem_models_props (hmodels ▸ h1)
      · simp at h1
        subst h1
        exact ⟨hne, hcomma, hstrip⟩

/-- **C7, counterexample to the original claim.** The claim says applying the
model-set update rule twice with the same incoming name equals applying it
once, for every stored string and every incoming provider name.  This fails
when the incoming name itself contains a comma: starting from an empty field,
the first application stores the name verbatim via the empty-field shortcut,
and the second application splits it at the comma into two tokens, finds the
full name absent, and appends it again. -/
theorem claim_C7_counterexample :
    ¬ (∀ current new_model : String,
        update_model_field (update_model_field current new_model) new_model
          = update_model_field current new_model) := by
  intro h
  exact absurd (h "" "a,b") (by decide)

/-- **C7** (corrected).  `update_conversation_models` writes back exactly the
split/trim/drop-empties/append-if-absent/rejoin of the current model field
(the empty-field shortcut in the code agrees with the spec's general rule),
and applying the rule twice with the same provider name equals applying it
once provided the incoming name is nonempty, whitespace-trimmed and
comma-free; without that proviso idempotence fails
(see the counterexample). -/
theorem claim_C7 (current new_model : String)
    (hne : new_model ≠ "") (hstrip : pyStrip new_model = new_model)
    (hcomma : ',' ∉ new_model.data) :
    update_model_field current new_model
      = update_model_field_spec current new_model ∧
    update_model_field (update_model_field current new_model) new_model
      = update_model_field current new_model :=
  ⟨update_model_field_eq_spec current new_model,
   update_model_field_idem current new_model hne hstrip hcomma⟩

/-- Witness for C7 at a concrete input: the name "qwen" is nonempty, trimmed
and comma-free, and the rule is idempotent on the stored field "deepseek". -/
theorem claim_C7_witness :
    update_model_field "deepseek" "qwen"
      = update_model_field_spec "deepseek" "qwen" ∧
    update_model_field (update_model_field "deepseek" "qwen") "qwen"
      = update_model_field "deepseek" "qwen" :=
  claim_C7 "deepseek" "qwen" (by decide) (by decide) (by decide)

/-- **C8, counterexample to the original claim.** The claim says a rename
whose `(conversation_id, user_id)` pair matches no stored conversation fails
with a NotFound-style error rather than reporting success.  In fact the
route reports success (code 0) in that case, because `execute_query` returns
`True` whenever the UPDATE raises no SQL error, without inspecting the
matched row count: on an empty table the rename of "c1" still yields
code 0. -/
theorem claim_C8_counterexample :
    ¬ (∀ (db : List ConvRow) (cid uid t : String) (now : Nat),
        (∀ r ∈ db, ¬ (r.id = cid ∧ r.user_id = uid)) →
        (rename_conversation db cid uid t now).1.code ≠ 0) := by
  intro h
  exact h [] "c1" "u1" "t" 0 (by simp) (by decide)

/-- **C8** (corrected).  A blank (all-whitespace) or over-64-character
`new_title` is rejected with a 400 envelope and no database mutation; but
when `(conversation_id, user_id)` matches no stored row and all validations
pass, the route reports success (code 0) with the database unchanged — there
is no NotFound-style error, because `execute_query` does not inspect the
UPDATE's matched row count. -/
theorem claim_C8 (db : List ConvRow) (cid uid t : String) (now : Nat) :
    ((pyStrip t = "" ∨ MAX_TITLE_LENGTH < t.length) →
      (rename_conversation db cid uid t now).1.code = 400 ∧
      (rename_conversation db cid uid t now).2 = db) ∧
    (pyStrip cid ≠ "" → pyStrip uid ≠ "" → pyStrip t ≠ "" →
      t.length ≤ MAX_TITLE_LENGTH →
      (∀ r ∈ db, ¬ (r.id = cid ∧ r.user_id = uid)) →
      (rename_conversation db cid uid t now).1.code = 0 ∧
      (rename_conversation db cid uid t now).2 = db) := by
  unfold rename_conversation
  constructor
  · intro ht
    by_cases h1 : pyStrip cid = ""
    · rw [if_pos h1]
      exact ⟨rfl, rfl⟩
    · rw [if_neg h1]
      by_cases h2 : pyStrip uid = ""
      · rw [if_pos h2]
        exact ⟨rfl, rfl⟩
      · rw [if_neg h2]
        by_cases h3 : pyStrip t = ""
        · rw [if_pos h3]
          exact ⟨rfl, rfl⟩
        · rcases ht with ht | ht
          · exact absurd ht h3
          · rw [if_neg h3, if_pos ht]
            exact ⟨rfl, rfl⟩
  · intro h1 h2 h3 h4 hnm
    rw [if_neg h1, if_neg h2, if_neg h3, if_neg (Nat.not_lt.mpr h4)]
    refine ⟨rfl, ?_⟩
    show db.map _ = db
    conv_rhs => rw [← List.map_id db]
    exact List.map_congr_left (fun r hr => if_neg (hnm r hr))

/-- Witness for C8 at concrete inputs: a blank title is rejected with 400 and
no mutation, and a well-formed rename against an empty table reports code 0
with the table unchanged. -/
theorem claim_C8_witness :
    ((rename_conversation [] "c1" "u1" " " 0).1.code = 400 ∧
      (rename_conversation [] "c1" "u1" " " 0).2 = []) ∧
    ((rename_conversation [] "c1" "u1" "t" 0).1.code = 0 ∧
      (rename_conversation [] "c1" "u1" "t" 0).2 = []) :=
  ⟨(claim_C8 [] "c1" "u1" " " 0).1 (Or.inl (by decide)),
   (claim_C8 [] "c1" "u1" "t" 0).2 (by decide) (by decide) (by decide)
     (by decide) (by simp)⟩

/-- **C9, counterexample to the original claim.** The claim says the newly
inserted conversation header has an empty title.  The code inserts
`DEFAULT_TITLE = "未命名对话"`, which is not the empty string: creating a
conversation in an empty table yields a row whose title is nonempty. -/
theorem claim_C9_counterexample :
    ¬ (∀ (user_id model newId : String) (db : List ConvRow) (now : Nat),
        ∀ r ∈ (create_conversation user_id model newId db now).2,
          r ∉ db → r.title = "") := by
  intro h
  have hr := h "u" "m" "c1" [] 0
    { id := "c1", user_id := "u", title := DEFAULT_TITLE, model := "m",
      create_time := 0, update_time := 0 }
    (by decide) (by decide)
  exact absurd hr (by decide)

/-- **C9** (corrected).  `create_conversation` appends exactly one header
row, whose title is the constant `DEFAULT_TITLE` ("未命名对话"), a nonempty
placeholder — not the empty string the spec describes. -/
theorem claim_C9 (user_id model newId : String) (db : List ConvRow)
    (now : Nat) :
    (create_conversation user_id model newId db now).2
      = db ++ [{ id := newId, user_id := user_id, title := DEFAULT_TITLE,
                 model := model, create_time := now, update_time := now }] ∧
    DEFAULT_TITLE ≠ "" :=
  ⟨rfl, by decide⟩

/-! ## Lemmas: lookups through the mongo writes of a saved turn (claim C6) -/

theorem akeys_storeUpdate (st : List (String × Node)) (k : String) (d : Node) :
    akeys (storeUpdate st k d) = akeys st := by
  unfold akeys storeUpdate
  rw [List.map_map]
  refine List.map_congr_left (fun kv _ => ?_)
  show (if kv.1 = k then (k, d) else kv).1 = kv.1
  by_cases h : kv.1 = k
  · rw [if_pos h, h]
  · rw [if_neg h]

theorem alookup_storeUpdate_ne (st : List (String × Node)) (k : String)
    (d : Node) (p : String) (hp : p ≠ k) :
    alookup (storeUpdate st k d) p = alookup st p := by
  induction st with
  | nil => rfl
  | cons kv rest ih =>
      cases kv with
      | mk k1 v1 =>
          simp only [storeUpdate, List.map_cons]
          by_cases h : k1 = k
          · rw [if_pos (show (k1, v1).1 = k from h)]
            simp only [alookup]
            rw [if_neg (fun hh : k = p => hp hh.symm),
              if_neg (fun hh : k1 = p => hp (hh ▸ h))]
            exact ih
          · rw [if_neg (show ¬ (k1, v1).1 = k from h)]
            simp only [alookup]
            by_cases h2 : k1 = p
            · rw [if_pos h2, if_pos h2]
            · rw [if_neg h2, if_neg h2]
              exact ih

theorem alookup_storeUpdate_self (st : List (String × Node)) (k : String)
    (d : Node) (hk : k ∈ akeys st) :
    alookup (storeUpdate st k d) k = some d := by
  induction st with
  | nil => simp [akeys] at hk
  | cons kv rest ih =>
      cases kv with
      | mk k1 v1 =>
          simp only [storeUpdate, List.map_cons]
          by_cases h : k1 = k
          · rw [if_pos (show (k1, v1).1 = k from h)]
            simp [alookup]
          · rw [if_neg (show ¬ (k1, v1).1 = k from h)]
            simp only [alookup]
            rw [if_neg h]
            apply ih
            have hk2 : k ∈ k1 :: akeys rest := hk
            rcases List.mem_cons.mp hk2 with hh | hh
            · exact absurd hh.symm h
            · exact hh

theorem alookup_append_of_not_mem {β : Type} (l1 l2 : List (String × β))
    (k : String) (h : k ∉ akeys l1) :
    alookup (l1 ++ l2) k = alookup l2 k := by
  induction l1 with
  | nil => rfl
  | cons kv rest ih =>
      cases kv with
      | mk k1 v1 =>
          have h' : k ∉ k1 :: akeys rest := h
          simp only [List.cons_append, alookup]
          rw [if_neg (fun hh : k1 = k => h' (by rw [hh]; exact List.mem_cons_self _ _))]
          exact ih (fun hh => h' (List.mem_cons_of_mem _ hh))

theorem alookup_append_of_some {β : Type} (l1 l2 : List (String × β))
    (k : String) (v : β) (h : alookup l1 k = some v) :
    alookup (l1 ++ l2) k = some v := by
  induction l1 with
  | nil => simp [alookup] at h
  | cons kv rest ih =>
      cases kv with
      | mk k1 v1 =>
          simp only [List.cons_append, alookup] at h ⊢
          by_cases hk : k1 = k
          · rwa [if_pos hk] at h ⊢
          · rw [if_neg hk] at h ⊢
            exact ih h

theorem akeys_upFold (uid : String) (l st : List (String × Node)) :
    akeys (l.foldl (fun st kv =>
      if uid ∈ kv.2.children then st
      else storeUpdate st kv.1 { kv.2 with children := kv.2.children ++ [uid] })
      st) = akeys st := by
  induction l generalizing st with
  | nil => rfl
  | cons kv rest ih =>
      rw [List.foldl_cons, ih]
      by_cases h : uid ∈ kv.2.children
      · rw [if_pos h]
      · rw [if_neg h]
        exact akeys_storeUpdate _ _ _

theorem alookup_upFold_not_mem (uid : String) (l st : List (String × Node))
    (p : String) (hp : ∀ kv ∈ l, kv.1 ≠ p) :
    alookup (l.foldl (fun st kv =>
      if uid ∈ kv.2.children then st
      else storeUpdate st kv.1 { kv.2 with children := kv.2.children ++ [uid] })
      st) p = alookup st p := by
  induction l generalizing st with
  | nil => rfl
  | cons kv rest ih =>
      rw [List.foldl_cons, ih _ (fun x hx => hp x (List.mem_cons_of_mem _ hx))]
      by_cases h : uid ∈ kv.2.children
      · rw [if_pos h]
      · rw [if_neg h]
        exact alookup_storeUpdate_ne _ _ _ _
          (fun hh => hp kv (List.mem_cons_self _ _) hh.symm)

theorem alookup_upFold_hit (uid : String) (l1 l2 : List (String × Node))
    (p : String) (v : Node) (st : List (String × Node))
    (h2 : ∀ kv ∈ l2, kv.1 ≠ p) (hu : uid ∉ v.children) (hk : p ∈ akeys st) :
    alookup ((l1 ++ (p, v) :: l2).foldl (fun st kv =>
      if uid ∈ kv.2.children then st
      else storeUpdate st kv.1 { kv.2 with children := kv.2.children ++ [uid] })
      st) p = some { v with children := v.children ++ [uid] } := by
  simp only [List.foldl_append, List.foldl_cons]
  rw [alookup_upFold_not_mem uid l2 _ p h2]
  rw [if_neg hu]
  refine alookup_storeUpdate_self _ _ _ ?_
  rw [akeys_upFold]
  exact hk

theorem alookup_decomp {m : List (String × Node)} (hnd : (akeys m).Nodup)
    {p : String} {v : Node} (h : alookup m p = some v) :
    ∃ l1 l2, m = l1 ++ (p, v) :: l2 ∧ (∀ kv ∈ l1, kv.1 ≠ p) ∧
      (∀ kv ∈ l2, kv.1 ≠ p) := by
  induction m with
  | nil => simp [alookup] at h
  | cons kv rest ih =>
      cases kv with
      | mk k1 v1 =>
          have hnd2 : (k1 :: akeys rest).Nodup := hnd
          by_cases hk : k1 = p
          · subst hk
            simp only [alookup, eq_self_iff_true, if_true,
              Option.some.injEq] at h
            subst h
            refine ⟨[], rest, rfl, by simp, ?_⟩
            intro x hx hxp
            have hmem : k1 ∈ akeys rest := by
              rw [← hxp]
              exact List.mem_map_of_mem Prod.fst hx
            exact (List.nodup_cons.mp hnd2).1 hmem
          · simp only [alookup, if_neg hk] at h
            obtain ⟨l1, l2, hm, h1, h2⟩ := ih (List.nodup_cons.mp hnd2).2 h
            refine ⟨(k1, v1) :: l1, l2, by rw [hm, List.cons_append], ?_, h2⟩
            intro x hx
            rcases List.mem_cons.mp hx with rfl | hx
            · exact hk
            · exact h1 x hx

theorem updateParents_nil (st : List (String × Node)) (uid : String) :
    updateParents st [] uid = st := by
  unfold updateParents
  have hfil : st.filter (fun kv => decide (kv.1 ∈ ([] : List String))) = [] :=
    List.filter_eq_nil_iff.mpr (fun kv _ => by simp)
  rw [hfil]
  rfl

theorem akeys_updateParents (st : List (String × Node)) (ks : List String)
    (uid : String) : akeys (updateParents st ks uid) = akeys st := by
  simp only [updateParents]
  exact akeys_upFold uid _ st

theorem updateParents_lookup_not_mem (st : List (String × Node))
    (ks : List String) (uid p : String) (hp : p ∉ ks) :
    alookup (updateParents st ks uid) p = alookup st p := by
  simp only [updateParents]
  refine alookup_upFold_not_mem uid _ st p (fun kv hk hh => ?_)
  have hmem : kv.1 ∈ ks := by simpa using List.of_mem_filter hk
  exact hp (hh ▸ hmem)

theorem updateParents_lookup_mem (st : List (String × Node)) (ks : List String)
    (uid p : String) (v : Node) (hnd : (akeys st).Nodup) (hp : p ∈ ks)
    (hv : alookup st p = some v) (hu : uid ∉ v.children) :
    alookup (updateParents st ks uid) p
      = some { v with children := v.children ++ [uid] } := by
  obtain ⟨l1, l2, hm, h1, h2⟩ := alookup_decomp hnd hv
  simp only [updateParents]
  have hfil : st.filter (fun kv => decide (kv.1 ∈ ks))
      = l1.filter (fun kv => decide (kv.1 ∈ ks)) ++ (p, v)
        :: l2.filter (fun kv => decide (kv.1 ∈ ks)) := by
    rw [hm, List.filter_append, List.filter_cons]
    rw [if_pos (by simpa using hp)]
  rw [hfil]
  refine alookup_upFold_hit uid _ _ p v st
    (fun kv hk => h2 kv (List.mem_of_mem_filter hk)) hu ?_
  exact mem_akeys_iff.mpr ⟨v, alookup_mem hv⟩

theorem akeys_append {β : Type} (l1 l2 : List (String × β)) :
    akeys (l1 ++ l2) = akeys l1 ++ akeys l2 := by
  simp [akeys]

theorem save_mongo_result (req : ChatRequest) (fc fr : String)
    (store : List (String × Node)) (uid aid : String)
    (hok : (reqParents req).mapM parseOid = some (reqParents req)) :
    save_mongo req fc fr store uid aid =
      (storeUpdate
        (storeUpdate
          (updateParents
            (store ++ [(uid,
              { role := "user", content := req.message,
                conversation_id := req.conversation_id,
                model := some req.model, reasoning := none,
                parent_ids := reqParents req, children := [] })])
            (reqParents req) uid
           ++ [(aid,
              { role := "assistant", content := fc,
                conversation_id := req.conversation_id,
                model := some req.model,
                reasoning := if fr ≠ "" then some fr else none,
                parent_ids := [], children := [] })])
          uid
          { role := "user", content := req.message,
            conversation_id := req.conversation_id,
            model := some req.model, reasoning := none,
            parent_ids := reqParents req, children := [aid] })
        aid
        { role := "assistant", content := fc,
          conversation_id := req.conversation_id,
          model := some req.model,
          reasoning := if fr ≠ "" then some fr else none,
          parent_ids := [uid], children := [] },
       some (uid, aid)) := by
  by_cases hnil : reqParents req = []
  · simp only [save_mongo, hnil, updateParents_nil]
    rfl
  · simp only [save_mongo, hok]
    rw [if_neg hnil]
    rfl

theorem save_mongo_mirror (req : ChatRequest) (fc fr : String)
    (store : List (String × Node)) (uid aid : String)
    (hnd : (akeys store).Nodup)
    (huid : uid ∉ akeys store) (haid : aid ∉ akeys store) (hne : uid ≠ aid)
    (hfresh : ∀ kv ∈ store, uid ∉ kv.2.children)
    (hpar : ∀ p ∈ reqParents req, parseOid p = some p ∧ p ∈ akeys store) :
    (save_mongo req fc fr store uid aid).2 = some (uid, aid) ∧
    ∃ u a,
      alookup (save_mongo req fc fr store uid aid).1 uid = some u ∧
      alookup (save_mongo req fc fr store uid aid).1 aid = some a ∧
      a.parent_ids = [uid] ∧ u.children = [aid] ∧
      ∀ p ∈ reqParents req, ∃ w w2,
        alookup store p = some w ∧
        alookup (save_mongo req fc fr store uid aid).1 p = some w2 ∧
        w2.children = w.children ++ [uid] ∧
        List.count uid w2.children = 1 := by
  have hok : (reqParents req).mapM parseOid = some (reqParents req) :=
    mapM_parseOid_id _ (fun p hp => (hpar p hp).1)
  rw [save_mongo_result req fc fr store uid aid hok]
  have hkeys1 : akeys (store ++ [(uid,
      ({ role := "user", content := req.message,
         conversation_id := req.conversation_id,
         model := some req.model, reasoning := none,
         parent_ids := reqParents req, children := [] } : Node))])
      = akeys store ++ [uid] := by
    simp [akeys]
  have hnd1 : (akeys store ++ [uid]).Nodup := by
    rw [List.nodup_append]
    exact ⟨hnd, List.nodup_singleton uid, by simpa using huid⟩
  refine ⟨rfl,
    { role := "user", content := req.message,
      conversation_id := req.conversation_id,
      model := some req.model, reasoning := none,
      parent_ids := reqParents req, children := [aid] },
    { role := "assistant", content := fc,
      conversation_id := req.conversation_id,
      model := some req.model,
      reasoning := if fr ≠ "" then some fr else none,
      parent_ids := [uid], children := [] },
    ?_, ?_, rfl, rfl, ?_⟩
  · -- lookup of the user node in the final store
    rw [alookup_storeUpdate_ne _ _ _ _ hne]
    refine alookup_storeUpdate_self _ _ _ ?_
    rw [akeys_append, akeys_updateParents, hkeys1]
    simp
  · -- lookup of the assistant node in the final store
    refine alookup_storeUpdate_self _ _ _ ?_
    rw [akeys_storeUpdate, akeys_append, akeys_updateParents, hkeys1]
    simp [akeys]
  · -- each requested parent carries the new user id exactly once
    intro p hp
    have hpk : p ∈ akeys store := (hpar p hp).2
    have hpu : p ≠ uid := fun hh => huid (hh ▸ hpk)
    have hpa : p ≠ aid := fun hh => haid (hh ▸ hpk)
    obtain ⟨w, hw⟩ := alookup_isSome_of_key store p hpk
    have hwmem : (p, w) ∈ store := alookup_mem hw
    have hwu : uid ∉ w.children := hfresh (p, w) hwmem
    have hst1 : alookup (store ++ [(uid,
        ({ role := "user", content := req.message,
           conversation_id := req.conversation_id,
           model := some req.model, reasoning := none,
           parent_ids := reqParents req, children := [] } : Node))]) p
        = some w := alookup_append_of_some _ _ _ _ hw
    have hst2 := updateParents_lookup_mem _ (reqParents req) uid p w
      (by rw [hkeys1]; exact hnd1) hp hst1 hwu
    refine ⟨w, { w with children := w.children ++ [uid] }, hw, ?_, rfl, ?_⟩
    · rw [alookup_storeUpdate_ne _ _ _ _ hpa,
        alookup_storeUpdate_ne _ _ _ _ hpu]
      exact alookup_append_of_some _ _ _ _ hst2
    · show List.count uid (w.children ++ [uid]) = 1
      rw [List.count_append, List.count_singleton,
        List.count_eq_zero.mpr hwu]
      simp

/-- **C6.** After `save_conversation_to_database` completes for a turn in
which every id in `request.parent_ids` references an existing node (and the
two freshly generated ObjectIds are new to the store), the edge mirror holds
on all touched nodes: the new assistant node's `parent_ids` is exactly the
singleton of the new user node id, the new user node's `children` contains
the assistant id, and every requested parent gains the user id in its
`children` exactly once — a retry guarded by the membership check cannot
duplicate it. -/
theorem claim_C6 (req : ChatRequest) (fc fr : String) (first_ask : Bool)
    (genTitle : String) (now : Nat) (uid aid : String) (db : DB)
    (hnd : (akeys db.nodes).Nodup)
    (huid : uid ∉ akeys db.nodes) (haid : aid ∉ akeys db.nodes)
    (hne : uid ≠ aid)
    (hfresh : ∀ kv ∈ db.nodes, uid ∉ kv.2.children)
    (hpar : ∀ p ∈ reqParents req, parseOid p = some p ∧ p ∈ akeys db.nodes) :
    (save_conversation_to_database req fc fr first_ask genTitle now
        uid aid db).2 = some (uid, aid) ∧
    ∃ u a,
      alookup (save_conversation_to_database req fc fr first_ask genTitle now
        uid aid db).1.nodes uid = some u ∧
      alookup (save_conversation_to_database req fc fr first_ask genTitle now
        uid aid db).1.nodes aid = some a ∧
      a.parent_ids = [uid] ∧ u.children = [aid] ∧
      ∀ p ∈ reqParents req, ∃ w w2,
        alookup db.nodes p = some w ∧
        alookup (save_conversation_to_database req fc fr first_ask genTitle
          now uid aid db).1.nodes p = some w2 ∧
        w2.children = w.children ++ [uid] ∧
        List.count uid w2.children = 1 :=
  save_mongo_mirror req fc fr db.nodes uid aid hnd huid haid hne hfresh hpar

/-- Witness for C6: a two-node turn saved under a single existing parent
whose children list starts empty; the parent ends with exactly one copy of
the new user id, and the user/assistant pair is mutually linked. -/
theorem claim_C6_witness :
    (save_conversation_to_database
      { message := "hi", conversation_id := "c1",
        parent_ids := some ["aaaaaaaaaaaaaaaaaaaaaaaa"] } "ans" "" false
      "t" 0 "u1" "a1"
      { convs := [],
        nodes := [("aaaaaaaaaaaaaaaaaaaaaaaa",
          { role := "assistant", content := "prev",
            conversation_id := "c1" })] }).2 = some ("u1", "a1") ∧
    ∃ u a,
      alookup (save_conversation_to_database
        { message := "hi", conversation_id := "c1",
          parent_ids := some ["aaaaaaaaaaaaaaaaaaaaaaaa"] } "ans" "" false
        "t" 0 "u1" "a1"
        { convs := [],
          nodes := [("aaaaaaaaaaaaaaaaaaaaaaaa",
            { role := "assistant", content := "prev",
              conversation_id := "c1" })] }).1.nodes "u1" = some u ∧
      alookup (save_conversation_to_database
        { message := "hi", conversation_id := "c1",
          parent_ids := some ["aaaaaaaaaaaaaaaaaaaaaaaa"] } "ans" "" false
        "t" 0 "u1" "a1"
        { convs := [],
          nodes := [("aaaaaaaaaaaaaaaaaaaaaaaa",
            { role := "assistant", content := "prev",
              conversation_id := "c1" })] }).1.nodes "a1" = some a ∧
      a.parent_ids = ["u1"] ∧ u.children = ["a1"] ∧
      ∀ p ∈ reqParents
        ({ message := "hi", conversation_id := "c1",
           parent_ids := some ["aaaaaaaaaaaaaaaaaaaaaaaa"] } : ChatRequest),
        ∃ w w2,
          alookup [("aaaaaaaaaaaaaaaaaaaaaaaa",
            ({ role := "assistant", content := "prev",
               conversation_id := "c1" } : Node))] p = some w ∧
          alookup (save_conversation_to_database
            { message := "hi", conversation_id := "c1",
              parent_ids := some ["aaaaaaaaaaaaaaaaaaaaaaaa"] } "ans" ""
            false "t" 0 "u1" "a1"
            { convs := [],
              nodes := [("aaaaaaaaaaaaaaaaaaaaaaaa",
                { role := "assistant", content := "prev",
                  conversation_id := "c1" })] }).1.nodes p = some w2 ∧
          w2.children = w.children ++ ["u1"] ∧
          List.count "u1" w2.children = 1 :=
  claim_C6
    { message := "hi", conversation_id := "c1",
      parent_ids := some ["aaaaaaaaaaaaaaaaaaaaaaaa"] } "ans" "" false
    "t" 0 "u1" "a1"
    { convs := [],
      nodes := [("aaaaaaaaaaaaaaaaaaaaaaaa",
        { role := "assistant", content := "prev",
          conversation_id := "c1" })] }
    (by decide) (by decide) (by decide) (by decide) (by decide) (by decide)

/-! ## Lemmas: silent termination on client disconnect (claim C4) -/

theorem generate_go_disconnect (req : ChatRequest) (first_ask : Bool)
    (genTitle : String) (now : Nat) (uid aid : String) (db : DB) (k : Nat) :
    ∀ (chunks : List Chunk) (i : Nat) (fc fr : String)
      (frames : List SSEFrame), i ≤ k → k - i < chunks.length →
      (∀ c ∈ chunks.take (k - i + 1), chunkHasError c = false) →
      generate_go req first_ask genTitle now uid aid (some k) db chunks i
        fc fr frames
        = (frames ++ (chunks.take (k - i)).map
            (fun c => SSEFrame.token c.content c.reasoning), db) := by
  intro chunks
  induction chunks with
  | nil =>
      intro i fc fr frames hik hlen hcl
      simp at hlen
  | cons c rest ih =>
      intro i fc fr frames hik hlen hcl
      have hc : chunkHasError c = false := by
        refine hcl c ?_
        have hk1 : k - i + 1 = (k - i) + 1 := rfl
        rw [hk1, List.take_succ_cons]
        exact List.mem_cons_self _ _
      rw [generate_go]
      rw [if_neg (by simp [hc])]
      by_cases hi : i = k
      · rw [if_pos (by rw [hi])]
        have hz : k - i = 0 := by omega
        rw [hz]
        simp
      · rw [if_neg (by simpa using fun hh : k = i => hi hh.symm)]
        have h1 : i + 1 ≤ k := by omega
        have h2 : k - (i + 1) < rest.length := by
          simp at hlen
          omega
        have h3 : ∀ x ∈ rest.take (k - (i + 1) + 1),
            chunkHasError x = false := by
          intro x hx
          refine hcl x ?_
          have hk1 : k - i + 1 = (k - (i + 1) + 1) + 1 := by omega
          rw [hk1, List.take_succ_cons]
          exact List.mem_cons_of_mem _ hx
        rw [ih (i + 1) _ _ _ h1 h2 h3]
        have hk2 : k - i = k - (i + 1) + 1 := by omega
        rw [hk2, List.take_succ_cons, List.map_cons]
        simp

/-- **C4.** A client disconnect raised while relaying chunk `k` (the handler
catches ConnectionError, CancelledError, BrokenPipeError and OSError and
returns) ends the turn silently: the emitted frames are exactly the token
frames of the chunks already relayed — no error frame among them — and the
database is returned untouched: no user or assistant node is inserted, no
parent's children list changes, and the conversation rows (title, model,
update_time) are exactly as before. -/
theorem claim_C4 (req : ChatRequest) (chunks : List Chunk) (k : Nat)
    (first_ask : Bool) (genTitle : String) (now : Nat) (uid aid : String)
    (db : DB) (hk : k < chunks.length)
    (hclean : ∀ c ∈ chunks.take (k + 1), chunkHasError c = false) :
    generate_run req true chunks (some k) first_ask genTitle now uid aid db
      = ((chunks.take k).map (fun c => SSEFrame.token c.content c.reasoning),
         db) ∧
    ∀ f ∈ (generate_run req true chunks (some k) first_ask genTitle now uid
      aid db).1, SSEFrame.isError f = false := by
  have h := generate_go_disconnect req first_ask genTitle now uid aid db k
    chunks 0 "" "" [] (Nat.zero_le k) (by simpa using hk)
    (by simpa using hclean)
  have hrun : generate_run req true chunks (some k) first_ask genTitle now
      uid aid db
      = generate_go req first_ask genTitle now uid aid (some k) db chunks 0
        "" "" [] := by
    simp [generate_run]
  constructor
  · rw [hrun, h]
    simp
  · rw [hrun, h]
    intro f hf
    simp only [Nat.sub_zero, List.nil_append] at hf
    obtain ⟨c, hc, rfl⟩ := List.mem_map.mp hf
    rfl

/-- Witness for C4: a four-chunk clean stream cut by a broken pipe at the
fourth yield relays three token frames and leaves the empty database
untouched. -/
theorem claim_C4_witness :
    generate_run { message := "hi", conversation_id := "c1" } true
        [{ content := "x" }, { content := "y" }, { content := "z" },
         { content := "w" }] (some 3) false "t" 0 "u1" "a1"
        { convs := [], nodes := [] }
      = ((([{ content := "x" }, { content := "y" }, { content := "z" },
            { content := "w" }] : List Chunk).take 3).map
          (fun c => SSEFrame.token c.content c.reasoning),
         { convs := [], nodes := [] }) ∧
    ∀ f ∈ (generate_run { message := "hi", conversation_id := "c1" } true
        [{ content := "x" }, { content := "y" }, { content := "z" },
         { content := "w" }] (some 3) false "t" 0 "u1" "a1"
        { convs := [], nodes := [] }).1, SSEFrame.isError f = false :=
  claim_C4 { message := "hi", conversation_id := "c1" }
    [{ content := "x" }, { content := "y" }, { content := "z" },
     { content := "w" }] 3 false "t" 0 "u1" "a1"
    { convs := [], nodes := [] } (by decide) (by decide)

end DagChat
